import Mathlib

/-!
# Verification of the metagraph annotation-matrix and chainer core

This file gives a shallow embedding of the parts of the metagraph code base
(rob-p/metagraph) that the specification's testable properties talk about:

* the Multi-BRWT binary matrix queries
  (src/annotation/binary_matrix/multi_brwt/brwt.cpp),
* its serialization format and loader,
* the row-diff transform reconstruction for integer and coordinate (tuple)
  annotations (src/annotation/int_matrix/row_diff/{int,tuple}_row_diff.hpp),
* the seed-chain emission / coverage gate of the alignment chainer
  (src/graph/alignment/aligner_chainer.cpp),
* the annotation buffer's canonical-mode folding
  (src/graph/alignment/annotation_buffer.cpp),
* the path index distance query
  (src/graph/graph_extensions/path_index.cpp).

Bit vectors are modelled as `List Bool` (LSB of the sdsl vector at index 0),
64-bit machine integers as `Nat` (with explicit modular corrections where
underflow can actually occur), and fallible loaders as `Option`-valued
parsers over an explicit token stream.
-/

namespace Metagraph

/-! ## Bit-vector primitives

The metagraph `bit_vector` contract (spec §4.1): `rank1 i` counts the set
bits in positions `[0, i]` (inclusive convention), `select1 r` is the
position of the `r`-th set bit (1-indexed), `conditional_rank1 i` is
`rank1 i` if bit `i` is set and 0 otherwise, `get_int i w` reads `w` bits
starting at `i`, and `call_ones` enumerates the set positions. -/

/-- Number of set bits in the whole vector (`num_set_bits`). -/
def countOnes (l : List Bool) : Nat := l.count true

/-- `rank1 l i`: number of set bits in positions `[0, i]` (inclusive). -/
def rank1 (l : List Bool) (i : Nat) : Nat := countOnes (l.take (i + 1))

/-- `conditional_rank1`: `rank1 i` when bit `i` is set, else 0.
Out-of-range reads are modelled as reading an unset bit. -/
def conditionalRank1 (l : List Bool) (i : Nat) : Nat :=
  if l.getD i false then rank1 l i else 0

/-- `select1 l r`: position of the `r`-th set bit, 1-indexed
(junk value past the end when fewer than `r` bits are set). -/
def select1 : List Bool → Nat → Nat
  | [], _ => 0
  | true :: l, r => if r ≤ 1 then 0 else 1 + select1 l (r - 1)
  | false :: l, r => 1 + select1 l r

/-- The `w`-bit window starting at bit `i` (`get_int(i, w)`), as a bit list;
bit `k` of the machine word is element `k` of the list. -/
def getIntBits (l : List Bool) (i w : Nat) : List Bool := (l.drop i).take w

/-- Positions of the set bits in ascending order (`call_ones`). -/
def onesPositions (l : List Bool) : List Nat :=
  (List.range l.length).filter (fun i => l.getD i false)

/-! ## The Multi-BRWT tree (brwt.cpp)

A node carries `nonzero_rows_` (a bit vector over the rows passed in from
the parent), an `assignments_` structure partitioning its columns among the
children, and the child subtrees; a node with no children is a leaf holding
exactly one column.  `assignments_` is modelled as the list of column
groups: `asg.get k` is the list of global column ids owned by child `k`, in
the child's local column order, so that

* `assignments_.group(c)`   = index of the group containing `c`,
* `assignments_.rank(c)`    = position of `c` inside its group,
* `assignments_.get(k, j)`  = `j`-th element of group `k`,
* `assignments_.num_groups()` = number of groups. -/

inductive BRWT where
  | node (nonzeroRows : List Bool) (asg : List (List Nat)) (children : List BRWT)
deriving Inhabited

namespace BRWT

/-- `assignments_.group(c)`: index of the group containing column `c`. -/
def asgGroup (asg : List (List Nat)) (c : Nat) : Nat :=
  asg.findIdx (fun g => g.contains c)

/-- `assignments_.rank(c)`: the local column id of `c` inside its group. -/
def asgRank (asg : List (List Nat)) (c : Nat) : Nat :=
  ((asg.getD (asgGroup asg c) []).findIdx (fun x => x = c))

/-- `assignments_.get(k, j)`: the global column id of local column `j` of
child `k`. -/
def asgGet (asg : List (List Nat)) (k j : Nat) : Nat :=
  (asg.getD k []).getD j 0

def nonzeroRows : BRWT → List Bool
  | .node nz _ _ => nz

def asg : BRWT → List (List Nat)
  | .node _ a _ => a

def children : BRWT → List BRWT
  | .node _ _ ch => ch

/-- Number of rows of the (sub)matrix: the length of `nonzero_rows_`. -/
def numRows (t : BRWT) : Nat := t.nonzeroRows.length

/-- Number of columns: 1 at a leaf, total size of the assignment groups at
an internal node. -/
def numCols : BRWT → Nat
  | .node _ _ [] => 1
  | .node _ a (_ :: _) => a.flatten.length

/-- `BRWT::get(row, column)` (brwt.cpp lines 15-30): at a leaf answer the
filter bit; at an internal node stop if the filter bit is unset, otherwise
descend into the child owning the column with the projected row index
`rank1(row) - 1` and the local column id. -/
def get (t : BRWT) (row col : Nat) : Bool :=
  match t with
  | .node nz _ [] => nz.getD row false
  | .node nz a (c :: cs) =>
    let rank := conditionalRank1 nz row
    if rank = 0 then false
    else
      match h : (c :: cs)[asgGroup a col]? with
      | some child => get child (rank - 1) (asgRank a col)
      | none => false
termination_by t
decreasing_by
  have hm := List.getElem?_mem h
  have := List.sizeOf_lt_of_mem hm
  simp only [BRWT.node.sizeOf_spec]
  omega

mutual

/-- `BRWT::get_column_ranks(Row)` (brwt.cpp lines 32-59): the row of genuine
relations together with column ranks; its first components form `get_row`. -/
def getColumnRanks (t : BRWT) (i : Nat) : List (Nat × Nat) :=
  match t with
  | .node nz a ch =>
    let rank := conditionalRank1 nz i
    if rank = 0 then []
    else
      match ch with
      | [] => [(0, rank)]
      | c :: cs => getColumnRanksChildren a 0 (c :: cs) (rank - 1)

/-- The loop over child nodes in `get_column_ranks`, child index `k` running
over the children; local columns are remapped by `assignments_.get(k, ·)`. -/
def getColumnRanksChildren (a : List (List Nat)) (k : Nat) (ch : List BRWT)
    (i : Nat) : List (Nat × Nat) :=
  match ch with
  | [] => []
  | c :: rest =>
    (getColumnRanks c i).map (fun p => (BRWT.asgGet a k p.1, p.2))
      ++ getColumnRanksChildren a (k + 1) rest i

end

/-- `get_row(row)`: the sorted-set-of-columns view of a row.  `BRWT` exposes
it through `get_column_ranks` (brwt.cpp lines 32-59): the columns are the
first components of the rank pairs. -/
def getRow (t : BRWT) (i : Nat) : List Nat :=
  (getColumnRanks t i).map Prod.fst

/-- `BRWT::get_column(column)` (brwt.cpp lines 241-271): descend into the
unique subtree owning the column; remap the returned child rows through
`select1(r + 1)` unless the filter is all ones. -/
def getColumn (t : BRWT) (col : Nat) : List Nat :=
  match t with
  | .node nz a ch =>
    if countOnes nz = 0 then []
    else
      match ch with
      | [] => onesPositions nz
      | c :: cs =>
        match h : (c :: cs)[asgGroup a col]? with
        | some child =>
          let rows := getColumn child (asgRank a col)
          if countOnes nz = nz.length then rows
          else rows.map (fun r => select1 nz (r + 1))
        | none => []
termination_by t
decreasing_by
  have hm := List.getElem?_mem h
  have := List.sizeOf_lt_of_mem hm
  simp only [BRWT.node.sizeOf_spec]
  omega

/-- The guard of the windowed branch of `BRWT::slice_rows` (brwt.cpp lines
140-143): taken when the fifth row from the current one (`row_ids[i + 4]`,
i.e. element 3 of the remaining rows) still lies inside the 64-bit window
anchored at the current row, and the window does not run past the end of
`nonzero_rows_`. -/
def windowCond (nzLen go : Nat) (rest : List Nat) : Bool :=
  match rest[3]? with
  | some r4 => decide (r4 < go + 64) && decide (go ≤ r4) && decide (go + 64 ≤ nzLen)
  | none => false

/-- The row-projection loop of `BRWT::slice_rows` (brwt.cpp lines 127-174).
Returns the projected child row ids (`child_row_ids`) and the per-input-row
skip flags (`skip_row`).  In the windowed branch the 64-bit window is read
once (`get_int(global_offset, 64)`) and the do-while loop consumes every
following row inside the window, deriving the bit test from the window and
the rank from `rank1(global_offset - 1)` plus a popcount of the low bits of
the window.  (The source computes `rank` lazily at the first set bit; the
value is the same.)  Otherwise a single `conditional_rank1` settles the row. -/
def projectRows (nz : List Bool) : List Nat → List Nat × List Bool
  | [] => ([], [])
  | go :: rest =>
    if windowCond nz.length go rest then
      let word := getIntBits nz go 64
      let inWin := fun r => decide (go ≤ r) && decide (r < go + 64)
      let run := (go :: rest).takeWhile inWin
      let rest2 := rest.dropWhile inWin
      let rank := if 0 < go then rank1 nz (go - 1) else 0
      let ids := run.filterMap (fun r =>
        if word.getD (r - go) false then
          some (rank + countOnes (word.take (r - go + 1)) - 1)
        else none)
      let skips := run.map (fun r => !word.getD (r - go) false)
      let p := projectRows nz rest2
      (ids ++ p.1, skips ++ p.2)
    else
      let p := projectRows nz rest
      ((if nz.getD go false then [conditionalRank1 nz go - 1] else []) ++ p.1,
        (!nz.getD go false) :: p.2)
termination_by rows => rows.length
decreasing_by
  case _ =>
    have := (List.dropWhile_sublist (l := rest)
      (p := fun r => decide (go ≤ r) && decide (r < go + 64))).length_le
    simp only [List.length_cons]
    omega
  case _ => simp

/-- The per-row reference path: for each input row, test the filter bit with
`conditional_rank1` and project to `rank1(row) - 1` when it is set (spec
§4.2, the `else` branch of the loop in brwt.cpp lines 166-173 applied to
every row). -/
def simpleProject (nz : List Bool) (rows : List Nat) : List Nat × List Bool :=
  (rows.filterMap (fun r =>
      if nz.getD r false then some (conditionalRank1 nz r - 1) else none),
    rows.map (fun r => !nz.getD r false))

/-- Read one delimiter-terminated row off the front of a slice buffer
(the `std::find` / advance-past-delimiter step of `BRWT::get_rows`,
brwt.cpp lines 69-77).  The delimiter `Column::MAX` is modelled as `none`. -/
def takeRow : List (Option Nat) → List Nat × List (Option Nat)
  | [] => ([], [])
  | none :: rest => ([], rest)
  | some c :: rest =>
    let p := takeRow rest
    (c :: p.1, p.2)

/-- The merge loop of `BRWT::slice_rows` (brwt.cpp lines 201-211): for each
input row in order, nothing is pulled if the row was skipped; otherwise one
delimiter-terminated row is pulled from every child slice and concatenated;
every input row is closed with a delimiter. -/
def mergeRows : List Bool → List (List (Option Nat)) → List (Option Nat)
  | [], _ => []
  | skip :: skips, slices =>
    if skip then none :: mergeRows skips slices
    else
      let pulled := slices.map takeRow
      pulled.flatMap (fun p => p.1.map Option.some)
        ++ (none :: mergeRows skips (pulled.map Prod.snd))

mutual

/-- `BRWT::slice_rows<Column>` (brwt.cpp lines 91-214): the flat buffer of
delimiter-terminated per-row column lists.  At a leaf the single column 0 is
emitted for each queried row whose bit is set; at an internal node rows are
projected through `projectRows`, each child is queried recursively with the
projected rows, the child columns remapped through `assignments_.get`, and
the resulting slices merged row by row.  If no queried row has its filter
bit set, the result is one bare delimiter per row. -/
def sliceRows (t : BRWT) (rows : List Nat) : List (Option Nat) :=
  match t with
  | .node nz _ [] =>
    rows.flatMap (fun i => (if nz.getD i false then [some 0] else []) ++ [none])
  | .node nz a (c :: cs) =>
    let p := projectRows nz rows
    if p.1.isEmpty then List.replicate rows.length none
    else mergeRows p.2 (sliceChildren a 0 (c :: cs) p.1)

/-- The loop over children in `slice_rows` (brwt.cpp lines 184-199): query
each child subtree with the projected rows and remap its local columns to
global ones. -/
def sliceChildren (a : List (List Nat)) (k : Nat) (ch : List BRWT)
    (childRows : List Nat) : List (List (Option Nat)) :=
  match ch with
  | [] => []
  | c :: rest =>
    ((sliceRows c childRows).map (Option.map (BRWT.asgGet a k)))
      :: sliceChildren a (k + 1) rest childRows

end

/-- The splitting loop of `BRWT::get_rows` (brwt.cpp lines 61-80): cut the
slice buffer into one column list per queried row. -/
def splitN : Nat → List (Option Nat) → List (List Nat)
  | 0, _ => []
  | n + 1, s =>
    let p := takeRow s
    p.1 :: splitN n p.2

/-- `BRWT::get_rows(row_ids)` (brwt.cpp lines 61-80). -/
def getRows (t : BRWT) (rows : List Nat) : List (List Nat) :=
  splitN rows.length (sliceRows t rows)

/-- Helper for stating the per-child row content of an internal node whose
children are `ch` starting at child index `k`: element `j` maps a child row
index to the columns of child `k + j` at that row, remapped to global
column ids through `assignments_.get(k + j, ·)`. -/
def childRowFns (a : List (List Nat)) (k : Nat) : List BRWT → List (Nat → List Nat)
  | [] => []
  | c :: rest => (fun cr => (getRow c cr).map (asgGet a k)) :: childRowFns a (k + 1) rest

/-- Build-time well-formedness of a BRWT node (spec §3 data-model row for
`BRWT node` and §4.2): a leaf owns exactly one column (`assignments` of
size 1); an internal node has as many children as assignment groups, its
groups partition the local column range `[0, num_columns)`, group `j`
lists exactly the columns of child `j` in the child's local order, and
every child's `nonzero_rows_` has one position per set bit of this node's
filter. -/
def wf (t : BRWT) : Bool :=
  match t with
  | .node _ a [] => decide (a = [[0]])
  | .node nz a (c :: cs) =>
    decide ((c :: cs).length = a.length)
      && decide (List.Perm a.flatten (List.range a.flatten.length))
      && (List.range a.length).all
          (fun j => decide ((a.getD j []).length = ((c :: cs).getD j default).numCols))
      && (c :: cs).attach.all (fun x => decide (x.1.numRows = countOnes nz) && wf x.1)
termination_by t
decreasing_by
  have := List.sizeOf_lt_of_mem x.2
  simp only [BRWT.node.sizeOf_spec]
  omega

/-! ### A concrete example matrix (spec §8, scenario 1)

The 4-by-4 matrix with columns `{A, B, C, D} = {0, 1, 2, 3}` and rows
`r0 = {A}`, `r1 = {B, D}`, `r2 = {}`, `r3 = {A, C}`, decomposed as a
Multi-BRWT with two internal children owning columns `{0, 1}` and
`{2, 3}`. -/

def exLeaf00 : BRWT := .node [true, false, true] [[0]] []

def exLeaf01 : BRWT := .node [false, true, false] [[0]] []

def exChild0 : BRWT := .node [true, true, true] [[0], [1]] [exLeaf00, exLeaf01]

def exLeaf12 : BRWT := .node [false, true] [[0]] []

def exLeaf13 : BRWT := .node [true, false] [[0]] []

def exChild1 : BRWT := .node [false, true, true] [[0], [1]] [exLeaf12, exLeaf13]

def exRoot : BRWT := .node [true, true, false, true] [[0, 1], [2, 3]] [exChild0, exChild1]

end BRWT

/-! ## Serialization (brwt.cpp lines 273-314; int_row_diff.hpp lines
239-252; tuple_row_diff.hpp lines 344-357)

Streams are modelled as lists of tokens: `byte b` is one raw byte (the
4-byte version tag written by the row-diff wrappers), `asg a` a serialized
`assignments_` blob, `bv v` a serialized bit vector, `num n` a value
written with `serialize_number`.  A loader returns `none` on failure (a
bad stream, a component that fails to load, or an exception) together
with no partial value, or the loaded value and the remaining stream. -/

inductive Tok where
  | byte (b : Nat)
  | asg (a : List (List Nat))
  | bv (v : List Bool)
  | num (n : Nat)
deriving DecidableEq

mutual

/-- `BRWT::serialize` (brwt.cpp lines 299-314): the assignments blob, then
`nonzero_rows_`, then the number of children, then each child in order. -/
def serializeBRWT : BRWT → List Tok
  | .node nz a ch =>
    Tok.asg a :: Tok.bv nz :: Tok.num ch.length :: serializeChildren ch

/-- The loop serializing the children of a node in order. -/
def serializeChildren : List BRWT → List Tok
  | [] => []
  | c :: rest => serializeBRWT c ++ serializeChildren rest

end

mutual

/-- `BRWT::load` (brwt.cpp lines 273-297): load `assignments_`, then
`nonzero_rows_`, then the child count, then that many children (on child
failure the whole load fails); finally report success only when the number
of children is 0 or equals `assignments_.num_groups()`.  `fuel` bounds the
recursion depth; any fuel at least the tree height is enough. -/
def loadBRWT : Nat → List Tok → Option (BRWT × List Tok)
  | 0, _ => none
  | fuel + 1, Tok.asg a :: Tok.bv v :: Tok.num n :: rest =>
    match loadChildren fuel n rest with
    | some (ch, rest2) =>
      if ch.length = 0 ∨ ch.length = a.length then some (.node v a ch, rest2) else none
    | none => none
  | _ + 1, _ => none
termination_by fuel _ => (fuel, 0)

/-- The loop loading `n` children (brwt.cpp lines 284-291). -/
def loadChildren : Nat → Nat → List Tok → Option (List BRWT × List Tok)
  | _, 0, s => some ([], s)
  | fuel, n + 1, s =>
    match loadBRWT fuel s with
    | some (t, s2) =>
      match loadChildren fuel n s2 with
      | some (ch, s3) => some (t :: ch, s3)
      | none => none
    | none => none
termination_by fuel n _ => (fuel, n + 1)

end

mutual

/-- Height of a BRWT tree (1 for a leaf); any fuel at least the height
makes `loadBRWT` succeed on a serialized tree. -/
def heightBRWT : BRWT → Nat
  | .node _ _ ch => heightList ch + 1

def heightList : List BRWT → Nat
  | [] => 0
  | c :: rest => max (heightBRWT c) (heightList rest)

end

mutual

/-- The invariant checked by `BRWT::load` (brwt.cpp lines 292-293) and
asserted by `BRWT::serialize` (lines 305-306): at every node the child
count is 0 or equals the number of assignment groups. -/
def childCountOk : BRWT → Bool
  | .node _ a ch =>
    (decide (ch.length = 0) || decide (ch.length = a.length)) && childCountOkList ch

def childCountOkList : List BRWT → Bool
  | [] => true
  | c :: rest => childCountOk c && childCountOkList rest

end

/-- The serialized state of a row-diff wrapper (`IntRowDiff` /
`TupleRowDiff`): the anchor bit vector, the fork-successor bit vector and
the base matrix (here a BRWT, as in the `row_diff_brwt` variant). -/
structure RowDiffFile where
  anchor : List Bool
  forkSucc : List Bool
  base : BRWT

/-- The 4-byte version tag "v2.0" written by `serialize`
(int_row_diff.hpp line 248, tuple_row_diff.hpp line 353). -/
def versionTag : List Tok := [Tok.byte 118, Tok.byte 50, Tok.byte 46, Tok.byte 48]

/-- `IntRowDiff::serialize` / `TupleRowDiff::serialize` (int_row_diff.hpp
lines 246-252, tuple_row_diff.hpp lines 351-357): the version tag, then
`anchor_`, then `fork_succ_`, then the base matrix. -/
def serializeRowDiff (m : RowDiffFile) : List Tok :=
  versionTag ++ (Tok.bv m.anchor :: Tok.bv m.forkSucc :: serializeBRWT m.base)

/-- `IntRowDiff::load` / `TupleRowDiff::load` (int_row_diff.hpp lines
239-244, tuple_row_diff.hpp lines 344-349): read 4 bytes into a scratch
string without ever comparing them to "v2.0", then load `anchor_`,
`fork_succ_` and the base matrix, succeeding iff all three load. -/
def loadRowDiff (fuel : Nat) : List Tok → Option (RowDiffFile × List Tok)
  | _ :: _ :: _ :: _ :: Tok.bv a :: Tok.bv f :: rest =>
    match loadBRWT fuel rest with
    | some (b, rest2) => some (⟨a, f, b⟩, rest2)
    | none => none
  | _ => none

/-- The part of the row-diff loader after the 4 discarded bytes: load
`anchor_`, `fork_succ_`, then the base matrix. -/
def loadRowDiffTail (fuel : Nat) : List Tok → Option (RowDiffFile × List Tok)
  | Tok.bv a :: Tok.bv f :: rest =>
    match loadBRWT fuel rest with
    | some (b, rest2) => some (⟨a, f, b⟩, rest2)
    | none => none
  | _ => none

/-! ## Tuple row-diff reconstruction (tuple_row_diff.hpp)

A `RowTuples` row is a list of `(column, tuple)` pairs sorted by column,
where a tuple is a sorted list of coordinates.  `SHIFT = 1`: coordinates
increase by 1 at each edge of a row-diff path (tuple_row_diff.hpp line 30).
-/

/-- `std::set_symmetric_difference` applied to two sorted coordinate lists
(tuple_row_diff.hpp lines 386-388). -/
def symDiff : List Nat → List Nat → List Nat
  | xs, [] => xs
  | [], ys => ys
  | x :: xs, y :: ys =>
    if x < y then x :: symDiff xs (y :: ys)
    else if y < x then y :: symDiff (x :: xs) ys
    else symDiff xs ys
termination_by xs ys => xs.length + ys.length

/-- The merge loop of `TupleRowDiff::add_diff` (tuple_row_diff.hpp lines
374-395): a column present on only one side is copied; for a column present
on both sides, if the diff tuple is nonempty, the entry
`(column, set_symmetric_difference of the two tuples)` is pushed — even
when that symmetric difference is empty. -/
def addDiffMerge : List (Nat × List Nat) → List (Nat × List Nat) → List (Nat × List Nat)
  | row, [] => row
  | [], diff => diff
  | (c1, t1) :: row, (c2, t2) :: diff =>
    if c1 < c2 then (c1, t1) :: addDiffMerge row ((c2, t2) :: diff)
    else if c2 < c1 then (c2, t2) :: addDiffMerge ((c1, t1) :: row) diff
    else if t2.length ≠ 0 then (c1, symDiff t1 t2) :: addDiffMerge row diff
    else addDiffMerge row diff
termination_by row diff => row.length + diff.length

/-- `TupleRowDiff::add_diff` (tuple_row_diff.hpp lines 366-408): when the
diff is nonempty, merge it into the row; then decrement every coordinate of
every tuple by `SHIFT = 1` (the code asserts `c >= SHIFT` before
`c -= SHIFT`; natural subtraction truncates at 0 exactly where that assert
would fire). -/
def addDiff (diff row : List (Nat × List Nat)) : List (Nat × List Nat) :=
  (if diff.length ≠ 0 then addDiffMerge row diff else row).map
    (fun p => (p.1, p.2.map (fun c => c - 1)))

/-- The post-reconstruction assertion of `TupleRowDiff::get_row_tuples`
(tuple_row_diff.hpp lines 129-130): every entry of a reconstructed row must
carry a nonempty coordinate tuple. -/
def allTuplesNonempty (row : List (Nat × List Nat)) : Bool :=
  row.all (fun p => decide (p.2.length ≠ 0))

/-- Lexicographic comparison of sorted coordinate tuples, the `operator<`
of `std::vector` used when `get_row_tuples` sorts each stored row
(tuple_row_diff.hpp lines 120 and 124). -/
def tupleLe : List Nat → List Nat → Bool
  | [], _ => true
  | _ :: _, [] => false
  | x :: xs, y :: ys => if x < y then true else if y < x then false else tupleLe xs ys

/-- `std::pair` ordering on `(column, tuple)` entries. -/
def rtLe (p q : Nat × List Nat) : Bool :=
  if p.1 < q.1 then true else if q.1 < p.1 then false else tupleLe p.2 q.2

/-- Sorted insertion used to model `std::sort` over row entries. -/
def insertRT (p : Nat × List Nat) : List (Nat × List Nat) → List (Nat × List Nat)
  | [] => [p]
  | q :: qs => if rtLe p q then p :: q :: qs else q :: insertRT p qs

/-- `std::sort(rd_rows[*it].begin(), rd_rows[*it].end())` of
tuple_row_diff.hpp lines 120 and 124, modelled as insertion sort (the
observable is the sorted order, which agrees with `std::sort` on rows with
distinct columns). -/
def sortRT : List (Nat × List Nat) → List (Nat × List Nat)
  | [] => []
  | p :: ps => insertRT p (sortRT ps)

/-- The reconstruction loop of `TupleRowDiff::get_row_tuples`
(tuple_row_diff.hpp lines 116-131): the result starts as the sorted stored
row at the anchor end of the truncated row-diff path, then `add_diff` folds
in the sorted stored delta of each predecessor, walking back to the queried
row. -/
def reconstructTuples (anchorRow : List (Nat × List Nat))
    (diffs : List (List (Nat × List Nat))) : List (Nat × List Nat) :=
  diffs.foldl (fun result d => addDiff (sortRT d) result) (sortRT anchorRow)

/-- The projection of `TupleRowDiff::get_rows` (tuple_row_diff.hpp lines
327-342): the set-bit positions of a reconstructed row are the columns of
its entries, whatever their tuples hold. -/
def tupleRowToSetBits (row : List (Nat × List Nat)) : List Nat :=
  row.map Prod.fst

/-- `std::lower_bound` on a sorted list. -/
def lowerBound : List Nat → Nat → Option Nat
  | [], _ => none
  | x :: xs, c => if x < c then lowerBound xs c else some x

/-- `TupleRowDiff::get` (tuple_row_diff.hpp lines 63-68): binary-search the
set-bit list of the reconstructed row for the column. -/
def tupleRowGet (row : List (Nat × List Nat)) (c : Nat) : Bool :=
  decide (lowerBound (tupleRowToSetBits row) c = some c)

/-- Modelled from the spec (§4.3), not from `src/`: the build rule that
produces the stored delta of a non-anchor row from its logical row and its
successor's stored row.  Every coordinate of the predecessor's logical row
is shifted up by `SHIFT = 1`. -/
def shiftRow (row : List (Nat × List Nat)) : List (Nat × List Nat) :=
  row.map (fun p => (p.1, p.2.map (fun c => c + 1)))

/-- Modelled from the spec (§4.3), not from `src/`: the per-column
symmetric difference of two rows; a column whose tuple symmetric difference
comes out empty (a zero result) is dropped from the delta.  The in-source
decoder `addDiff` must invert this build rule. -/
def columnSymDiff : List (Nat × List Nat) → List (Nat × List Nat) → List (Nat × List Nat)
  | xs, [] => xs
  | [], ys => ys
  | (c1, t1) :: xs, (c2, t2) :: ys =>
    if c1 < c2 then (c1, t1) :: columnSymDiff xs ((c2, t2) :: ys)
    else if c2 < c1 then (c2, t2) :: columnSymDiff ((c1, t1) :: xs) ys
    else if (symDiff t1 t2).length ≠ 0 then (c1, symDiff t1 t2) :: columnSymDiff xs ys
    else columnSymDiff xs ys
termination_by xs ys => xs.length + ys.length

/-- Modelled from the spec (§4.3): the stored delta of a non-anchor row
`pred` whose row-diff successor's stored row is `succRow`. -/
def buildTupleDiff (pred succRow : List (Nat × List Nat)) : List (Nat × List Nat) :=
  columnSymDiff (shiftRow pred) succRow

/-! ## Seed-chain emission and the coverage gate (aligner_chainer.cpp)

`call_seed_chains_both_strands` backtracks chains in descending score
order, buffering chains of equal score in a multiset and flushing the
buffer whenever a strictly smaller score is reached (and once at the end).
A chain is abstracted to the total number of query characters covered by
its exact matches — `get_num_char_matches_in_seeds` (alignment.hpp lines
125-145), which counts the union of the seeds' query intervals — plus an
identity payload standing for everything else that chain equality compares;
the `double` division `matches / forward.size()` and the `double` threshold
`config.min_exact_match` are modelled exactly in `ℚ`. -/

structure CChain where
  nmatches : Nat
  payload : Nat
deriving DecidableEq

structure ChainGroup where
  score : Int
  chains : List CChain
deriving DecidableEq

/-- The coverage test of `flush_chains` (aligner_chainer.cpp lines 160-167
and 217-223): a chain passes when its exact-match fraction is NOT below
`min_exact_match`. -/
def passes (minExact : ℚ) (qlen : Nat) (c : CChain) : Bool :=
  decide (¬((c.nmatches : ℚ) / (qlen : ℚ) < minExact))

/-- Equal chains sit adjacent in the `unordered_multiset` buffer and are
merged into one before any emission decision (aligner_chainer.cpp lines
174-214; the merge only unions label columns and coordinates, leaving the
matched query characters unchanged). -/
def dedupAdj : List CChain → List CChain
  | [] => []
  | [c] => [c]
  | c :: c2 :: cs => if c = c2 then dedupAdj (c2 :: cs) else c :: dedupAdj (c2 :: cs)

/-- The emission loop of `flush_chains` (aligner_chainer.cpp lines 155-228)
over one buffer of equal-score, already-merged chains: each chain in turn
is tested; a passing chain is passed to the callback with the group score;
the first failing chain sets `coverage_too_low` and stops the flush at
once.  Returns the emitted chains and the flag. -/
def emitWhile (minExact : ℚ) (qlen : Nat) (s : Int) :
    List CChain → List (CChain × Int) × Bool
  | [] => ([], false)
  | c :: cs =>
    if passes minExact qlen c then
      ((c, s) :: (emitWhile minExact qlen s cs).1, (emitWhile minExact qlen s cs).2)
    else ([], true)

/-- The outer backtracking loop (aligner_chainer.cpp lines 231-338): flush
one score group after another; as soon as `coverage_too_low` is set, every
later group is skipped (the loop breaks and subsequent flushes return
immediately). -/
def callSeedChainsEmit (minExact : ℚ) (qlen : Nat) : List ChainGroup → List (CChain × Int)
  | [] => []
  | g :: gs =>
    if (emitWhile minExact qlen g.score (dedupAdj g.chains)).2 then
      (emitWhile minExact qlen g.score (dedupAdj g.chains)).1
    else
      (emitWhile minExact qlen g.score (dedupAdj g.chains)).1
        ++ callSeedChainsEmit minExact qlen gs

/-- The full processing sequence: every merged chain paired with its group
score, in the order the flushes would visit them. -/
def chainSeq (gs : List ChainGroup) : List (CChain × Int) :=
  gs.flatMap (fun g => (dedupAdj g.chains).map (fun c => (c, g.score)))

/-! ## Path index distance query (path_index.cpp)

The superbubble tables, one slot per unitig (`path_id`s are 1-based; the
accessors first decrement, and in `size_t` arithmetic `--path_id` on 0
wraps to `SIZE_MAX`, which always fails the bound check since the tables
are smaller than `2^64`).  `superbubble_termini_` and
`superbubble_sources_` are flat arrays read at `2*i` / `2*i + 1`.
Distances are `size_t`; subtraction and addition are modelled modulo
`2^64`. -/

structure PathIndexTables where
  isStart : List Bool
  termini : List Nat
  sources : List Nat
  canReach : List Bool

/-- The guard of `get_superbubble_terminus` (path_index.cpp line 508):
`--path_id < is_superbubble_start_.size() && is_superbubble_start_[path_id]`. -/
def sbStart (px : PathIndexTables) (pathId : Nat) : Bool :=
  pathId != 0 && decide (pathId - 1 < px.isStart.length)
    && px.isStart.getD (pathId - 1) false

/-- `PathIndex::get_superbubble_terminus` (path_index.cpp lines 505-514):
the `(terminus, distance)` slot of a superbubble source, `(0, 0)` (the
value-initialized pair) otherwise. -/
def getSuperbubbleTerminus (px : PathIndexTables) (pathId : Nat) : Nat × Nat :=
  if sbStart px pathId then
    (px.termini.getD ((pathId - 1) * 2) 0, px.termini.getD ((pathId - 1) * 2 + 1) 0)
  else (0, 0)

/-- `PathIndex::get_superbubble_and_dist` (path_index.cpp lines 516-525):
the `(containing source, distance from source)` slot of any in-range
unitig, `(0, 0)` otherwise. -/
def getSuperbubbleAndDist (px : PathIndexTables) (pathId : Nat) : Nat × Nat :=
  if pathId ≠ 0 ∧ pathId - 1 < px.isStart.length then
    (px.sources.getD ((pathId - 1) * 2) 0, px.sources.getD ((pathId - 1) * 2 + 1) 0)
  else (0, 0)

/-- Modelled from the spec (§4.7), not from `src/`: the per-unitig
`can_reach_terminus` bit; the member `can_reach_terminus_` and its
1-based-guard accessor are declared in path_index.hpp but the accessor
body is absent from the snapshot. -/
def canReachTerminus (px : PathIndexTables) (pathId : Nat) : Bool :=
  pathId != 0 && decide (pathId - 1 < px.canReach.length)
    && px.canReach.getD (pathId - 1) false

/-- `std::numeric_limits<size_t>::max()`, the "unreachable" sentinel. -/
def unreachableDist : Nat := 2 ^ 64 - 1

/-- `size_t` subtraction of table values (each `< 2^64`). -/
def sub64 (a b : Nat) : Nat := (a % 2 ^ 64 + 2 ^ 64 - b % 2 ^ 64) % 2 ^ 64

/-- `size_t` addition. -/
def add64 (a b : Nat) : Nat := (a + b) % 2 ^ 64

/-- The chain-walking loop of `IPathIndex::get_dist` (path_index.cpp lines
610-615): while `sb2` is a live id distinct from the target terminus and
the running distance is below `max_dist`, step to the superbubble
containing `sb2`, adding its recorded distance when it exists.  `fuel`
bounds the iteration count (the loop is as written non-terminating on a
cyclic `sources` table). -/
def chainWalk (px : PathIndexTables) (t maxDist : Nat) :
    Nat → Nat → Nat → Nat × Nat
  | 0, sb2, d => (sb2, d)
  | fuel + 1, sb2, d =>
    if sb2 ≠ 0 ∧ sb2 ≠ t ∧ d < maxDist then
      chainWalk px t maxDist fuel (getSuperbubbleAndDist px sb2).1
        (if (getSuperbubbleAndDist px sb2).1 ≠ 0 then
          add64 d (getSuperbubbleAndDist px sb2).2
         else d)
    else (sb2, d)

/-- `IPathIndex::get_dist` (path_index.cpp lines 577-619). -/
def getDist (px : PathIndexTables) (fuel p1 p2 maxDist : Nat) : Nat :=
  if p1 = p2 then 0
  else if sbStart px p1 = true ∧ (getSuperbubbleAndDist px p2).1 = p1 then
    (getSuperbubbleAndDist px p2).2
  else if (getSuperbubbleAndDist px p1).1 = (getSuperbubbleAndDist px p2).1 then
    (if (getSuperbubbleTerminus px (getSuperbubbleAndDist px p1).1).1 = p2
        ∧ canReachTerminus px p1 = true then
      sub64 (getSuperbubbleAndDist px p2).2 (getSuperbubbleAndDist px p1).2
     else unreachableDist)
  else if canReachTerminus px p1 = false then unreachableDist
  else
    let td := getSuperbubbleTerminus px
      (if sbStart px p1 then p1 else (getSuperbubbleAndDist px p1).1)
    let d0 := if sbStart px p1 then td.2
      else sub64 td.2 (getSuperbubbleAndDist px p1).2
    let w := chainWalk px td.1 maxDist fuel (getSuperbubbleAndDist px p2).1 d0
    if w.1 = td.1 then add64 w.2 (getSuperbubbleAndDist px p2).2 else unreachableDist

/-- The superbubble of spec §8, scenario 5: source unitig 1, internal
branch unitigs 2 and 3, terminus unitig 4 at recorded distance 11, and an
unrelated unitig 5 (tables are 0-based by unitig id minus 1; the flat
tables hold `(value, distance)` at `2i, 2i+1`). -/
def pxEx : PathIndexTables :=
  ⟨[true, false, false, false, false],
   [4, 11, 0, 0, 0, 0, 0, 0, 0, 0],
   [0, 0, 1, 1, 1, 1, 1, 11, 0, 0],
   [true, true, true, true, false]⟩

/-! ## AnnotationBuffer::fetch_queued_annotations (annotation_buffer.cpp)

`node_to_cols_` is modelled as an association list from node index to
column-set id; `nannot = SIZE_MAX` marks a queued-but-unfetched node;
`column_sets_` starts as `{ {} }` so id 0 is the empty set.  Annotation
rows are identified with base-node indices (the fixed graph/anno index
bijection), so a queued row is the base node id and the annotator is a
function from base node to its sorted label columns.  Coordinates
(`multi_int_`, `label_coords_`) are not modelled: the claim concerns only
`node_to_cols_`.  The three modes are: `basic` (a BASIC graph, base path =
path), `wrapped` (`canonical_ != nullptr`, a `CanonicalDBG` wrapper whose
`get_base_node` is `baseOf`), and `canonical` (a CANONICAL-mode base graph
with no wrapper, where `map_to_nodes` of the spelled path gives `baseOf`
and can return `npos = 0`). -/

inductive GMode where
  | basic
  | wrapped
  | canonical
deriving DecidableEq

/-- `std::numeric_limits<size_t>::max()`, the unfetched-annotation marker
(annotation_buffer.cpp line 19). -/
def nannot : Nat := 2 ^ 64 - 1

/-- Association-list model of `tsl::hopscotch_map::find`. -/
def mfind : List (Nat × Nat) → Nat → Option Nat
  | [], _ => none
  | p :: m, k => if p.1 = k then some p.2 else mfind m k

/-- `try_emplace` / `emplace`: insert only when the key is absent; the
flag is `.second` of the returned pair. -/
def tryEmplace : List (Nat × Nat) → Nat → Nat → List (Nat × Nat) × Bool
  | [], k, v => ([(k, v)], true)
  | p :: m, k, v =>
    if p.1 = k then (p :: m, false)
    else ((p :: (tryEmplace m k v).1), (tryEmplace m k v).2)

/-- `map[key] = value` / `it.value() = value`: overwrite or insert. -/
def massign : List (Nat × Nat) → Nat → Nat → List (Nat × Nat)
  | [], k, v => [(k, v)]
  | p :: m, k, v => if p.1 = k then (k, v) :: m else p :: massign m k v

/-- Insertion sort modelling `std::sort` of a label vector
(annotation_buffer.cpp line 99). -/
def insertNat (x : Nat) : List Nat → List Nat
  | [] => [x]
  | y :: ys => if x ≤ y then x :: y :: ys else y :: insertNat x ys

def sortNats : List Nat → List Nat
  | [] => []
  | x :: xs => insertNat x (sortNats xs)

/-- First index satisfying a predicate (`std` search in the intern
table). -/
def findIdxO {α : Type} (p : α → Bool) : List α → Option Nat
  | [] => none
  | x :: xs =>
    if p x then some 0
    else
      match findIdxO p xs with
      | some i => some (i + 1)
      | none => none

/-- Modelled from the spec (§4.4): `cache_column_set` interns a label set,
returning the id of an existing equal set or appending the new set at the
next id (the header defining it is absent from the snapshot; the
constructor seeds `column_sets_` with the empty set at id 0,
annotation_buffer.cpp line 29). -/
def cacheColumnSet (sets : List (List Nat)) (s : List Nat) :
    List (List Nat) × Nat :=
  match findIdxO (fun t => decide (t = s)) sets with
  | some i => (sets, i)
  | none => (sets ++ [s], sets.length)

/-- The buffer state: `node_to_cols_`, `column_sets_`, and the two queues
of `fetch_queued_annotations`. -/
structure ABuf where
  nodeToCols : List (Nat × Nat)
  columnSets : List (List Nat)
  queuedNodes : List Nat
  queuedRows : List Nat

/-- The freshly constructed buffer (annotation_buffer.cpp lines 21-31). -/
def initBuf : ABuf := ⟨[], [[]], [], []⟩

/-- The body of the per-position loop of `fetch_queued_annotations`
(annotation_buffer.cpp lines 129-199) for one path node `n` with base
node `b`: the `npos`-base branch, the BOSS-dummy branch (`b` gets id 0,
and in a CANONICAL-mode graph so does `n`), the queueing branch for
wrapped/basic graphs keyed by the base node, and the four-way
reconciliation of `find(path[i])` / `find(base_path[i])` for an unwrapped
CANONICAL graph. -/
def processNode (mode : GMode) (baseOf : Nat → Nat) (isDummy : Nat → Bool)
    (st : ABuf) (n : Nat) : ABuf :=
  let b := match mode with | GMode.basic => n | _ => baseOf n
  if b = 0 then
    { st with nodeToCols := (tryEmplace st.nodeToCols n 0).1 }
  else if isDummy b then
    { st with nodeToCols :=
        if mode ≠ GMode.basic ∧ b ≠ n then
          (tryEmplace (tryEmplace st.nodeToCols b 0).1 n 0).1
        else (tryEmplace st.nodeToCols b 0).1 }
  else if mode = GMode.wrapped ∨ mode = GMode.basic then
    if (tryEmplace st.nodeToCols b nannot).2 then
      { st with
        nodeToCols := (tryEmplace st.nodeToCols b nannot).1,
        queuedNodes := st.queuedNodes ++ [b],
        queuedRows := st.queuedRows ++ [b] }
    else
      { st with nodeToCols := (tryEmplace st.nodeToCols b nannot).1 }
  else
    match mfind st.nodeToCols n, mfind st.nodeToCols b with
    | none, none =>
      if n ≠ b then
        { st with
          nodeToCols := (tryEmplace (tryEmplace st.nodeToCols n nannot).1 b nannot).1,
          queuedNodes := st.queuedNodes ++ [n, b],
          queuedRows := st.queuedRows ++ [b, b] }
      else
        { st with
          nodeToCols := (tryEmplace st.nodeToCols n nannot).1,
          queuedNodes := st.queuedNodes ++ [n],
          queuedRows := st.queuedRows ++ [b] }
    | none, some vb =>
      { st with
        nodeToCols := (tryEmplace st.nodeToCols n vb).1,
        queuedNodes := if vb = nannot then st.queuedNodes ++ [n] else st.queuedNodes,
        queuedRows := if vb = nannot then st.queuedRows ++ [b] else st.queuedRows }
    | some va, none =>
      { st with nodeToCols := (tryEmplace st.nodeToCols b va).1 }
    | some va, some vb =>
      if min va vb ≠ nannot then
        { st with nodeToCols :=
            massign (massign st.nodeToCols n (min va vb)) b (min va vb) }
      else st

/-- `push_node_labels` (annotation_buffer.cpp lines 55-74): intern the
fetched label set and record its id — on the queued node for a BASIC
graph, on the base node behind a `CanonicalDBG` wrapper, and on both
orientations (assignment on the queued node, `try_emplace` on the base)
for an unwrapped CANONICAL graph. -/
def pushNodeLabels (mode : GMode) (st : ABuf) (n b : Nat)
    (labels : List Nat) : ABuf :=
  match mode with
  | GMode.basic =>
    { st with
      columnSets := (cacheColumnSet st.columnSets labels).1,
      nodeToCols := massign st.nodeToCols n (cacheColumnSet st.columnSets labels).2 }
  | GMode.wrapped =>
    { st with
      columnSets := (cacheColumnSet st.columnSets labels).1,
      nodeToCols := massign st.nodeToCols b (cacheColumnSet st.columnSets labels).2 }
  | GMode.canonical =>
    { st with
      columnSets := (cacheColumnSet st.columnSets labels).1,
      nodeToCols :=
        if b ≠ n then
          (tryEmplace
            (massign st.nodeToCols n (cacheColumnSet st.columnSets labels).2)
            b (cacheColumnSet st.columnSets labels).2).1
        else massign st.nodeToCols n (cacheColumnSet st.columnSets labels).2 }

/-- `fetch_row_batch` (annotation_buffer.cpp lines 51-103): walk the two
queues in lockstep, sorting each fetched row's labels and pushing them;
then the queues are emptied. -/
def flushBatch (mode : GMode) (annot : Nat → List Nat) (st : ABuf) : ABuf :=
  (st.queuedNodes.zip st.queuedRows).foldl
    (fun s p => pushNodeLabels mode s p.1 p.2 (sortNats (annot p.2)))
    { st with queuedNodes := [], queuedRows := [] }

/-- The batch-size check (annotation_buffer.cpp lines 194-198) sits at the
bottom of the per-position loop, after the `continue`s of the npos, dummy
and wrapped/basic branches: it is reachable only on the unwrapped
CANONICAL reconciliation path. -/
def reachesBatchCheck (mode : GMode) (baseOf : Nat → Nat)
    (isDummy : Nat → Bool) (n : Nat) : Bool :=
  match mode with
  | GMode.canonical => (baseOf n != 0) && !(isDummy (baseOf n))
  | _ => false

/-- `fetch_queued_annotations` (annotation_buffer.cpp lines 39-205):
process every node of every queued path, flushing a batch whenever the
row queue reaches `row_batch_size_` at the check point, then flush the
remainder. -/
def fetchQueued (mode : GMode) (baseOf : Nat → Nat) (isDummy : Nat → Bool)
    (annot : Nat → List Nat) (batchSize : Nat) (paths : List (List Nat))
    (st0 : ABuf) : ABuf :=
  flushBatch mode annot
    (paths.foldl
      (fun s path =>
        path.foldl
          (fun s2 n =>
            if reachesBatchCheck mode baseOf isDummy n = true
                ∧ batchSize ≤ (processNode mode baseOf isDummy s2 n).queuedRows.length
            then flushBatch mode annot (processNode mode baseOf isDummy s2 n)
            else processNode mode baseOf isDummy s2 n)
          s)
      st0)

/-- One iteration of the per-position loop for an unwrapped CANONICAL
graph at `row_batch_size_ = 1`: process the node, then flush whenever the
check point was reached with a nonempty row queue. -/
def stepCanon (baseOf : Nat → Nat) (isDummy : Nat → Bool)
    (annot : Nat → List Nat) (s2 : ABuf) (n : Nat) : ABuf :=
  if reachesBatchCheck GMode.canonical baseOf isDummy n = true
      ∧ 1 ≤ (processNode GMode.canonical baseOf isDummy s2 n).queuedRows.length
  then flushBatch GMode.canonical annot (processNode GMode.canonical baseOf isDummy s2 n)
  else processNode GMode.canonical baseOf isDummy s2 n

/-- The execution invariant of `fetch_queued_annotations` on an unwrapped
CANONICAL graph at `row_batch_size_ = 1`: the queues are empty between
iterations; `column_sets_` keeps the reserved empty set at id 0 and has
room for `k` more steps below `nannot`; every recorded id is a real index
into `column_sets_`; every node agrees with its base node; nodes over a
dummy base and nodes with an `npos` base hold id 0. -/
structure CInv (baseOf : Nat → Nat) (isDummy : Nat → Bool) (st : ABuf)
    (k : Nat) : Prop where
  qn : st.queuedNodes = []
  qr : st.queuedRows = []
  sets1 : 1 ≤ st.columnSets.length
  sets0 : st.columnSets.getD 0 [] = []
  budget : st.columnSets.length + 2 * k ≤ nannot
  vlt : ∀ x v, mfind st.nodeToCols x = some v → v < st.columnSets.length
  sync : ∀ x v, mfind st.nodeToCols x = some v → baseOf x ≠ 0 →
    mfind st.nodeToCols (baseOf x) = some v
  dz : ∀ x v, mfind st.nodeToCols x = some v → baseOf x ≠ 0 →
    isDummy (baseOf x) = true → v = 0
  nz : ∀ x v, mfind st.nodeToCols x = some v → baseOf x = 0 → v = 0

/-- A concrete canonical graph for exercising the buffer: node 3 is the
reverse complement of node 2 (shared base 2), node 4 is a dummy, node 5
maps to `npos`, and base 2 carries annotation column 7. -/
def bOfEx : Nat → Nat := fun x => if x = 3 then 2 else if x = 5 then 0 else x

def isDummyEx : Nat → Bool := fun x => decide (x = 4)

def annotEx : Nat → List Nat := fun x => if x = 2 then [7] else []

namespace BRWT

/-! ## Theorems -/

end BRWT

/-! ### Rank / select facts -/

theorem countOnes_cons_true (l : List Bool) : countOnes (true :: l) = 1 + countOnes l := by
  simp [countOnes, List.count_cons]
  omega

theorem countOnes_cons_false (l : List Bool) : countOnes (false :: l) = countOnes l := by
  simp [countOnes, List.count_cons]

theorem rank1_cons_zero_true (l : List Bool) : rank1 (true :: l) 0 = 1 := by
  simp [rank1, countOnes]

theorem rank1_cons_zero_false (l : List Bool) : rank1 (false :: l) 0 = 0 := by
  simp [rank1, countOnes]

theorem rank1_cons_succ_true (l : List Bool) (i : Nat) :
    rank1 (true :: l) (i + 1) = 1 + rank1 l i := by
  simp only [rank1, List.take_succ_cons]
  rw [countOnes_cons_true]

theorem rank1_cons_succ_false (l : List Bool) (i : Nat) :
    rank1 (false :: l) (i + 1) = rank1 l i := by
  simp only [rank1, List.take_succ_cons]
  rw [countOnes_cons_false]

theorem rank1_pos_of_bit {nz : List Bool} {i : Nat} (h : nz.getD i false = true) :
    0 < rank1 nz i := by
  induction nz generalizing i with
  | nil => simp at h
  | cons b l ih =>
    cases i with
    | zero =>
      simp only [List.getD_cons_zero] at h
      subst h
      rw [rank1_cons_zero_true]
      omega
    | succ i =>
      simp only [List.getD_cons_succ] at h
      have := ih h
      cases b with
      | true => rw [rank1_cons_succ_true]; omega
      | false => rw [rank1_cons_succ_false]; omega

theorem rank1_le_countOnes (nz : List Bool) (i : Nat) : rank1 nz i ≤ countOnes nz := by
  unfold rank1 countOnes
  exact (List.take_sublist _ _).count_le _

theorem bit_false_of_countOnes_zero {nz : List Bool} (h : countOnes nz = 0) (i : Nat) :
    nz.getD i false = false := by
  induction nz generalizing i with
  | nil => simp
  | cons b l ih =>
    cases b with
    | true => rw [countOnes_cons_true] at h; omega
    | false =>
      rw [countOnes_cons_false] at h
      cases i with
      | zero => simp
      | succ i =>
        simp only [List.getD_cons_succ]
        exact ih h i

theorem bit_true_of_all_ones {nz : List Bool} (h : countOnes nz = nz.length) {i : Nat}
    (hi : i < nz.length) : nz.getD i false = true := by
  induction nz generalizing i with
  | nil => simp at hi
  | cons b l ih =>
    have hc : countOnes l ≤ l.length := List.count_le_length true l
    simp only [List.length_cons] at h hi
    cases b with
    | false => rw [countOnes_cons_false] at h; omega
    | true =>
      rw [countOnes_cons_true] at h
      cases i with
      | zero => simp
      | succ i =>
        simp only [List.getD_cons_succ]
        exact ih (by omega) (by omega)

theorem rank1_all_ones {nz : List Bool} (h : countOnes nz = nz.length) {i : Nat}
    (hi : i < nz.length) : rank1 nz i = i + 1 := by
  induction nz generalizing i with
  | nil => simp at hi
  | cons b l ih =>
    have hc : countOnes l ≤ l.length := List.count_le_length true l
    simp only [List.length_cons] at h hi
    cases b with
    | false => rw [countOnes_cons_false] at h; omega
    | true =>
      rw [countOnes_cons_true] at h
      cases i with
      | zero => rw [rank1_cons_zero_true]
      | succ i =>
        rw [rank1_cons_succ_true, ih (by omega) (by omega)]
        omega

theorem select1_rank1_of_bit {nz : List Bool} {i : Nat} (h : nz.getD i false = true) :
    select1 nz (rank1 nz i) = i := by
  induction nz generalizing i with
  | nil => simp at h
  | cons b l ih =>
    cases i with
    | zero =>
      simp only [List.getD_cons_zero] at h
      subst h
      rw [rank1_cons_zero_true]
      simp [select1]
    | succ i =>
      simp only [List.getD_cons_succ] at h
      have hpos := rank1_pos_of_bit h
      cases b with
      | false =>
        rw [rank1_cons_succ_false]
        simp only [select1]
        rw [ih h]
        omega
      | true =>
        rw [rank1_cons_succ_true]
        simp only [select1]
        rw [if_neg (by omega)]
        have h1 : 1 + rank1 l i - 1 = rank1 l i := by omega
        rw [h1, ih h]
        omega

theorem select1_spec {nz : List Bool} {k : Nat} (h1 : 1 ≤ k) (h2 : k ≤ countOnes nz) :
    nz.getD (select1 nz k) false = true
      ∧ rank1 nz (select1 nz k) = k
      ∧ select1 nz k < nz.length := by
  induction nz generalizing k with
  | nil =>
    simp only [countOnes, List.count_nil] at h2
    omega
  | cons b l ih =>
    cases b with
    | true =>
      rw [countOnes_cons_true] at h2
      rcases Nat.lt_or_ge k 2 with hk | hk
      · have hk1 : k = 1 := by omega
        subst hk1
        refine ⟨by simp [select1], ?_, by simp [select1]⟩
        simp only [select1, if_pos (by omega : (1 : Nat) ≤ 1)]
        rw [rank1_cons_zero_true]
      · have ih2 := ih (k := k - 1) (by omega) (by omega)
        simp only [select1, if_neg (by omega : ¬k ≤ 1)]
        rw [Nat.add_comm 1 (select1 l (k - 1))]
        refine ⟨?_, ?_, ?_⟩
        · rw [List.getD_cons_succ]
          exact ih2.1
        · rw [rank1_cons_succ_true]
          have := ih2.2.1
          omega
        · simp only [List.length_cons]
          have := ih2.2.2
          omega
    | false =>
      rw [countOnes_cons_false] at h2
      have ih2 := ih (k := k) h1 h2
      simp only [select1]
      rw [Nat.add_comm 1 (select1 l k)]
      refine ⟨?_, ?_, ?_⟩
      · rw [List.getD_cons_succ]
        exact ih2.1
      · rw [rank1_cons_succ_false]
        exact ih2.2.1
      · simp only [List.length_cons]
        have := ih2.2.2
        omega

theorem mem_onesPositions {nz : List Bool} {r : Nat} :
    r ∈ onesPositions nz ↔ r < nz.length ∧ nz.getD r false = true := by
  simp [onesPositions, List.mem_filter, List.mem_range]

namespace BRWT

/-! ### Equivalence of the windowed scan with the per-row path -/

theorem windowCond_bound {L go : Nat} {rest : List Nat}
    (hw : windowCond L go rest = true) : go + 64 ≤ L := by
  unfold windowCond at hw
  cases h : rest[3]? with
  | none => rw [h] at hw; cases hw
  | some r4 =>
    rw [h] at hw
    simp only [Bool.and_eq_true, decide_eq_true_eq] at hw
    exact hw.2

theorem window_bit_eq (nz : List Bool) (go r : Nat) (h1 : go ≤ r) (h2 : r < go + 64)
    (_h3 : go + 64 ≤ nz.length) :
    (getIntBits nz go 64).getD (r - go) false = nz.getD r false := by
  simp only [getIntBits, List.getD_eq_getElem?_getD]
  rw [List.getElem?_take_of_lt (by omega), List.getElem?_drop]
  congr 2
  omega

theorem window_rank_eq (nz : List Bool) (go r : Nat) (h1 : go ≤ r) (h2 : r < go + 64) :
    (if 0 < go then rank1 nz (go - 1) else 0)
      + countOnes ((getIntBits nz go 64).take (r - go + 1)) = rank1 nz r := by
  have htake : (getIntBits nz go 64).take (r - go + 1) = (nz.drop go).take (r - go + 1) := by
    simp only [getIntBits]
    rw [List.take_take]
    congr 1
    omega
  have hsplit : nz.take (r + 1) = nz.take go ++ (nz.drop go).take (r - go + 1) := by
    have hr : r + 1 = go + (r - go + 1) := by omega
    rw [hr, List.take_add]
  have hgo : (if 0 < go then rank1 nz (go - 1) else 0) = countOnes (nz.take go) := by
    rcases Nat.eq_zero_or_pos go with h | h
    · subst h; simp [countOnes]
    · simp only [if_pos h, rank1]
      congr 2
      omega
  rw [htake, hgo, rank1, hsplit]
  simp only [countOnes, List.count_append]

/-- The windowed fast path of `slice_rows` computes exactly the per-row
projection: for every input row list, the `get_int`/popcount branch and the
`conditional_rank1` branch produce the same projected child rows and the
same skip flags. -/
theorem projectRows_eq_simpleProject (nz : List Bool) :
    ∀ rows : List Nat, projectRows nz rows = simpleProject nz rows := by
  suffices key : ∀ n rows, List.length rows = n → projectRows nz rows = simpleProject nz rows by
    intro rows
    exact key rows.length rows rfl
  intro n
  induction n using Nat.strong_induction_on with
  | _ n IH =>
  intro rows hn
  cases rows with
  | nil => simp [projectRows, simpleProject]
  | cons go rest =>
    rw [projectRows]
    by_cases hw : windowCond nz.length go rest = true
    · rw [if_pos hw]
      have hbound := windowCond_bound hw
      have hwin : (fun r => decide (go ≤ r) && decide (r < go + 64)) go = true := by simp
      have hdrop : (go :: rest).dropWhile (fun r => decide (go ≤ r) && decide (r < go + 64))
          = rest.dropWhile (fun r => decide (go ≤ r) && decide (r < go + 64)) := by
        rw [List.dropWhile_cons]
        simp
      have hsplit : ((go :: rest).takeWhile (fun r => decide (go ≤ r) && decide (r < go + 64)))
            ++ rest.dropWhile (fun r => decide (go ≤ r) && decide (r < go + 64))
          = go :: rest := by
        rw [← hdrop, List.takeWhile_append_dropWhile]
      have hlen : (rest.dropWhile (fun r => decide (go ≤ r) && decide (r < go + 64))).length < n := by
        have := (List.dropWhile_sublist
          (l := rest) (p := fun r => decide (go ≤ r) && decide (r < go + 64))).length_le
        simp only [List.length_cons] at hn
        omega
      dsimp only
      rw [IH _ hlen _ rfl]
      have hmem : ∀ r ∈ (go :: rest).takeWhile
          (fun r => decide (go ≤ r) && decide (r < go + 64)), go ≤ r ∧ r < go + 64 := by
        intro r hr
        have := List.mem_takeWhile_imp hr
        simpa using this
      simp only [simpleProject]
      conv_rhs => rw [← hsplit]
      rw [List.filterMap_append, List.map_append]
      refine Prod.ext ?_ ?_
      · show _ ++ _ = _ ++ _
        congr 1
        apply List.filterMap_congr
        intro r hr
        obtain ⟨hr1, hr2⟩ := hmem r hr
        rw [window_bit_eq nz go r hr1 hr2 hbound]
        by_cases hb : nz.getD r false
        · rw [if_pos hb, if_pos hb]
          have := window_rank_eq nz go r hr1 hr2
          rw [conditionalRank1, if_pos hb, ← this]
        · rw [if_neg hb, if_neg hb]
      · show _ ++ _ = _ ++ _
        congr 1
        apply List.map_congr_left
        intro r hr
        obtain ⟨hr1, hr2⟩ := hmem r hr
        rw [window_bit_eq nz go r hr1 hr2 hbound]
    · rw [if_neg hw]
      have hlen : rest.length < n := by
        simp only [List.length_cons] at hn
        omega
      dsimp only
      rw [IH _ hlen _ rfl]
      by_cases hb : nz.getD go false
      · simp only [List.getD_eq_getElem?_getD] at hb
        simp [simpleProject, hb]
      · simp only [List.getD_eq_getElem?_getD] at hb
        simp [simpleProject, hb]

/-! ### Claim C6 -/

/-- C6, counterexample to the claim as stated: the claim (and spec §4.2)
say the windowed branch is applied "when four or more consecutive input
rows fall inside the same 64-bit window of `nonzero_rows`".  Here the four
consecutive rows 0, 1, 2, 3 all lie inside the window `[0, 64)` of a
64-bit filter, yet the branch guard (brwt.cpp line 140: `i + 4 <
row_ids.size() && row_ids[i + 4] < global_offset + 64 && ...`) is false, so
each of the four rows is settled by an individual `conditional_rank1` call
and no 64-bit window is read.  The code (and its own comment, "if next word
contains 5 or more positions") requires five rows, not four. -/
theorem C6_counterexample_four_rows_not_windowed :
    windowCond 64 0 [1, 2, 3] = false
      ∧ (0 :: [1, 2, 3]).length = 4
      ∧ (∀ r ∈ (0 : Nat) :: [1, 2, 3], r < 0 + 64) := by
  decide

/-- C6 (amended): the windowed branch of the batched BRWT row query is
entered when the fifth row ahead (`row_ids[i + 4]`) still falls inside the
64-bit window of `nonzero_rows` anchored at the current row — i.e. when
five or more of the upcoming rows lie in that window — and the windowed
path (one `get_int(offset, 64)` read, with the bit test and the relative
rank derived by popcount of the low bits) computes exactly the same
projected child row list (`rank1(global_row) - 1` for each row whose filter
bit is set) and skip flags as the per-row `conditional_rank1` path.  The
first conjunct shows the five-row trigger firing on the five consecutive
rows 0..4 in the window `[0, 64)`. -/
theorem C6_windowed_scan_refines_per_row_path :
    windowCond 64 0 [1, 2, 3, 4] = true
      ∧ ∀ (nz : List Bool) (rows : List Nat),
          projectRows nz rows = simpleProject nz rows := by
  refine ⟨by decide, ?_⟩
  intro nz rows
  exact projectRows_eq_simpleProject nz rows

/-! ### The slice buffer computes `get_row` for every queried row -/

theorem takeRow_append (xs : List Nat) (rest : List (Option Nat)) :
    takeRow (xs.map Option.some ++ none :: rest) = (xs, rest) := by
  induction xs with
  | nil => simp [takeRow]
  | cons x xs ih => simp [takeRow, ih]

theorem mergeRows_cons_true (skips : List Bool) (slices : List (List (Option Nat))) :
    mergeRows (true :: skips) slices = none :: mergeRows skips slices := by
  rw [mergeRows]
  simp

theorem mergeRows_cons_false (skips : List Bool) (slices : List (List (Option Nat))) :
    mergeRows (false :: skips) slices
      = (slices.map takeRow).flatMap (fun p => p.1.map Option.some)
        ++ none :: mergeRows skips ((slices.map takeRow).map Prod.snd) := by
  rw [mergeRows]
  simp

theorem flatMap_map_some (fs : List (Nat → List Nat)) (x : Nat) :
    fs.flatMap (fun f => (f x).map Option.some)
      = ((fs.map (fun f => f x)).flatten).map Option.some := by
  induction fs with
  | nil => simp
  | cons f fs ih => simp [ih]

theorem mergeRows_spec (bit : Nat → Bool) (proj : Nat → Nat) (fs : List (Nat → List Nat)) :
    ∀ rows : List Nat,
    mergeRows (rows.map (fun r => !bit r))
        (fs.map (fun f =>
          (rows.filterMap (fun r => if bit r then some (proj r) else none)).flatMap
            (fun cr => (f cr).map Option.some ++ [none])))
      = rows.flatMap (fun r =>
          (if bit r then (fs.map (fun f => f (proj r))).flatten else []).map Option.some
            ++ [none]) := by
  intro rows
  induction rows with
  | nil => simp [mergeRows]
  | cons r rest ih =>
    cases hb : bit r with
    | false =>
      simp only [List.map_cons, hb, Bool.not_false, List.filterMap_cons, List.flatMap_cons,
        Bool.false_eq_true, reduceIte, mergeRows_cons_true]
      rw [ih]
      simp
    | true =>
      simp only [List.map_cons, hb, Bool.not_true, List.filterMap_cons, List.flatMap_cons,
        reduceIte, mergeRows_cons_false]
      have hpull : ((fs.map (fun f =>
            (f (proj r)).map Option.some ++ [none]
              ++ (rest.filterMap (fun x => if bit x then some (proj x) else none)).flatMap
                  (fun cr => (f cr).map Option.some ++ [none]))).map takeRow)
          = fs.map (fun f =>
              (f (proj r),
                (rest.filterMap (fun x => if bit x then some (proj x) else none)).flatMap
                  (fun cr => (f cr).map Option.some ++ [none]))) := by
        rw [List.map_map]
        apply List.map_congr_left
        intro f _
        simp only [Function.comp_def]
        rw [List.append_assoc, List.singleton_append, takeRow_append]
      rw [hpull, List.flatMap_map, List.map_map]
      simp only [Function.comp_def]
      rw [ih, flatMap_map_some]
      simp

theorem conditionalRank1_of_bit {nz : List Bool} {r : Nat} (h : nz.getD r false = true) :
    conditionalRank1 nz r = rank1 nz r := by
  rw [conditionalRank1, h]
  simp

theorem conditionalRank1_of_not_bit {nz : List Bool} {r : Nat} (h : nz.getD r false = false) :
    conditionalRank1 nz r = 0 := by
  rw [conditionalRank1, h]
  simp

theorem getRow_bit_false {nz : List Bool} {a : List (List Nat)} {ch : List BRWT} {r : Nat}
    (h : nz.getD r false = false) : getRow (BRWT.node nz a ch) r = [] := by
  rw [getRow, getColumnRanks.eq_def]
  dsimp only
  rw [conditionalRank1_of_not_bit h]
  simp

theorem getRow_leaf (nz : List Bool) (a : List (List Nat)) (r : Nat) :
    getRow (BRWT.node nz a []) r = if nz.getD r false then [0] else [] := by
  by_cases hb : nz.getD r false = true
  · rw [getRow, getColumnRanks.eq_def]
    dsimp only
    rw [conditionalRank1_of_bit hb]
    have hpos := rank1_pos_of_bit hb
    rw [if_neg (by omega), hb]
    simp
  · have hb2 : nz.getD r false = false := by
      cases h : nz.getD r false
      · rfl
      · exact absurd h hb
    rw [getRow_bit_false hb2, hb2]
    simp

theorem getColumnRanksChildren_fst (a : List (List Nat)) :
    ∀ (ch : List BRWT) (k i : Nat),
    (getColumnRanksChildren a k ch i).map Prod.fst
      = ((childRowFns a k ch).map (fun f => f i)).flatten := by
  intro ch
  induction ch with
  | nil => intro k i; simp [getColumnRanksChildren, childRowFns]
  | cons c rest ih =>
    intro k i
    rw [getColumnRanksChildren, childRowFns]
    simp only [List.map_append, List.map_cons, List.flatten_cons, List.map_map]
    rw [ih]
    simp [getRow, List.map_map, Function.comp]

theorem getRow_node_bit {nz : List Bool} {a : List (List Nat)} {c : BRWT} {cs : List BRWT}
    {r : Nat} (h : nz.getD r false = true) :
    getRow (BRWT.node nz a (c :: cs)) r
      = ((childRowFns a 0 (c :: cs)).map
          (fun f => f (conditionalRank1 nz r - 1))).flatten := by
  rw [getRow, getColumnRanks.eq_def]
  dsimp only
  rw [conditionalRank1_of_bit h]
  have hpos := rank1_pos_of_bit h
  rw [if_neg (by omega)]
  rw [getColumnRanksChildren_fst]

theorem sliceChildren_eq (a : List (List Nat)) (ids : List Nat) :
    ∀ (ch : List BRWT) (k : Nat),
    (∀ c ∈ ch, ∀ rows,
      sliceRows c rows = rows.flatMap (fun r => (getRow c r).map Option.some ++ [none])) →
    sliceChildren a k ch ids
      = (childRowFns a k ch).map
          (fun f => ids.flatMap (fun cr => (f cr).map Option.some ++ [none])) := by
  intro ch
  induction ch with
  | nil => intro k _; simp [sliceChildren, childRowFns]
  | cons c rest ih =>
    intro k hc
    rw [sliceChildren, childRowFns]
    simp only [List.map_cons]
    refine List.cons_eq_cons.mpr ⟨?_, ?_⟩
    · rw [hc c (by simp), List.map_flatMap]
      apply List.flatMap_congr
      intro r _
      simp [List.map_map, Function.comp]
    · exact ih (k + 1) (fun x hx rows => hc x (by simp [hx]) rows)

theorem flatMap_delim_eq_replicate (rows : List Nat) :
    rows.flatMap (fun _ => ([none] : List (Option Nat))) = List.replicate rows.length none := by
  induction rows with
  | nil => simp
  | cons r rest ih => simp [List.flatMap_cons, ih, List.replicate_succ]

/-- The slice buffer of `BRWT::slice_rows` is the concatenation, over the
queried rows in order, of that row's `get_row` columns followed by the
delimiter. -/
theorem sliceRows_spec (t : BRWT) (rows : List Nat) :
    sliceRows t rows = rows.flatMap (fun r => (getRow t r).map Option.some ++ [none]) := by
  suffices key : ∀ n t, sizeOf t = n → ∀ rows : List Nat,
      sliceRows t rows = rows.flatMap (fun r => (getRow t r).map Option.some ++ [none]) from
    key (sizeOf t) t rfl rows
  intro n
  induction n using Nat.strong_induction_on with
  | _ n IH =>
  intro t hs rows
  cases t with
  | node nz a ch =>
  cases ch with
  | nil =>
    rw [sliceRows.eq_def]
    dsimp only
    apply List.flatMap_congr
    intro r _
    rw [getRow_leaf]
    by_cases hb : nz.getD r false = true
    · rw [hb]
      simp
    · have hb2 : nz.getD r false = false := by
        cases h : nz.getD r false
        · rfl
        · exact absurd h hb
      rw [hb2]
      simp
  | cons c cs =>
    have hchild : ∀ x ∈ c :: cs, ∀ rows2 : List Nat,
        sliceRows x rows2 = rows2.flatMap (fun r => (getRow x r).map Option.some ++ [none]) := by
      intro x hx rows2
      have hlt : sizeOf x < n := by
        have := List.sizeOf_lt_of_mem hx
        subst hs
        simp only [BRWT.node.sizeOf_spec]
        omega
      exact IH (sizeOf x) hlt x rfl rows2
    rw [sliceRows.eq_def]
    dsimp only
    rw [projectRows_eq_simpleProject]
    simp only [simpleProject]
    by_cases hids : rows.filterMap (fun r =>
        if nz.getD r false then some (conditionalRank1 nz r - 1) else none) = []
    · rw [hids]
      simp only [List.isEmpty_nil, if_pos rfl]
      have hall := List.filterMap_eq_nil_iff.mp hids
      rw [← flatMap_delim_eq_replicate rows]
      apply List.flatMap_congr
      intro r hr
      have hb : nz.getD r false = false := by
        have := hall r hr
        cases h : nz.getD r false
        · rfl
        · rw [h] at this
          simp at this
      rw [getRow_bit_false hb]
      simp
    · rw [if_neg (by simpa [List.isEmpty_iff] using hids)]
      rw [sliceChildren_eq a _ (c :: cs) 0 hchild]
      rw [mergeRows_spec (fun r => nz.getD r false) (fun r => conditionalRank1 nz r - 1)
        (childRowFns a 0 (c :: cs)) rows]
      apply List.flatMap_congr
      intro r _
      by_cases hb : nz.getD r false = true
      · rw [if_pos hb, getRow_node_bit hb]
      · have hb2 : nz.getD r false = false := by
          cases h : nz.getD r false
          · rfl
          · exact absurd h hb
        rw [if_neg (by rw [hb2]; simp), getRow_bit_false hb2]

theorem splitN_flatMap (g : Nat → List Nat) :
    ∀ rows : List Nat,
    splitN rows.length (rows.flatMap (fun r => (g r).map Option.some ++ [none]))
      = rows.map g := by
  intro rows
  induction rows with
  | nil => simp [splitN]
  | cons r rest ih =>
    simp only [List.flatMap_cons, List.length_cons]
    rw [splitN, List.append_assoc, List.singleton_append, takeRow_append]
    dsimp only
    rw [ih]
    rfl

/-- `BRWT::get_rows` returns exactly the list of `get_row` results. -/
theorem getRows_eq_map_getRow (t : BRWT) (rows : List Nat) :
    getRows t rows = rows.map (getRow t) := by
  rw [getRows, sliceRows_spec, splitN_flatMap]

/-! ### Well-formedness and the assignment partition -/

theorem wf_leaf_iff {nz : List Bool} {a : List (List Nat)} :
    wf (BRWT.node nz a []) = true ↔ a = [[0]] := by
  rw [wf.eq_def]
  simp

theorem wf_node_iff {nz : List Bool} {a : List (List Nat)} {c : BRWT} {cs : List BRWT} :
    wf (BRWT.node nz a (c :: cs)) = true ↔
      ((c :: cs).length = a.length
        ∧ List.Perm a.flatten (List.range a.flatten.length)
        ∧ (∀ j, j < a.length → (a.getD j []).length = ((c :: cs).getD j default).numCols)
        ∧ ∀ x ∈ c :: cs, x.numRows = countOnes nz ∧ wf x = true) := by
  rw [wf.eq_def]
  simp only [Bool.and_eq_true, decide_eq_true_eq, List.all_eq_true, List.mem_range,
    List.mem_attach, true_implies, Subtype.forall]
  tauto

theorem flatten_nodup_of_perm_range {a : List (List Nat)}
    (hp : List.Perm a.flatten (List.range a.flatten.length)) : a.flatten.Nodup :=
  (List.nodup_range _).perm hp.symm

theorem asgGroup_spec {a : List (List Nat)} {col : Nat} (h : col ∈ a.flatten) :
    asgGroup a col < a.length
      ∧ col ∈ a.getD (asgGroup a col) [] := by
  obtain ⟨g, hg, hcg⟩ := List.mem_flatten.mp h
  have hex : ∃ g ∈ a, g.contains col = true := ⟨g, hg, List.elem_iff.mpr hcg⟩
  have hlt : a.findIdx (fun g => g.contains col) < a.length :=
    List.findIdx_lt_length_of_exists hex
  refine ⟨hlt, ?_⟩
  have hp := List.findIdx_getElem (p := fun g : List Nat => g.contains col) (w := hlt)
  rw [asgGroup, List.getD_eq_getElem _ _ hlt]
  exact List.elem_iff.mp (by simpa using hp)

theorem asgGroup_unique {a : List (List Nat)} {col j : Nat}
    (hnd : a.flatten.Nodup) (hj : j < a.length) (hcj : col ∈ a.getD j [])
    (hall : col ∈ a.flatten) : asgGroup a col = j := by
  obtain ⟨h1, h2⟩ := asgGroup_spec hall
  by_contra hne
  have hdisj := (List.nodup_flatten.mp hnd).2
  rw [List.pairwise_iff_getElem] at hdisj
  rw [List.getD_eq_getElem _ _ h1] at h2
  rw [List.getD_eq_getElem _ _ hj] at hcj
  rcases Nat.lt_or_ge (asgGroup a col) j with hlt | hge
  · exact (hdisj _ _ h1 hj hlt) h2 hcj
  · have hlt2 : j < asgGroup a col := by omega
    exact (hdisj _ _ hj h1 hlt2) hcj h2

theorem asgRank_spec {g : List Nat} {col : Nat} (hcg : col ∈ g) :
    g.findIdx (fun x => x = col) < g.length
      ∧ g.getD (g.findIdx (fun x => x = col)) 0 = col := by
  have hex : ∃ x ∈ g, (fun x => decide (x = col)) x = true := ⟨col, hcg, by simp⟩
  have hlt : g.findIdx (fun x => decide (x = col)) < g.length :=
    List.findIdx_lt_length_of_exists hex
  refine ⟨by simpa using hlt, ?_⟩
  have hp := List.findIdx_getElem (p := fun x : Nat => decide (x = col)) (w := hlt)
  simp only [decide_eq_true_eq] at hp
  rw [List.getD_eq_getElem _ _ (by simpa using hlt)]
  exact hp

theorem asgRank_inverse {g : List Nat} (hnd : g.Nodup) {i : Nat} (hi : i < g.length) :
    g.findIdx (fun x => x = g[i]) = i := by
  have hcg : g[i] ∈ g := List.getElem_mem hi
  obtain ⟨hlt, heq⟩ := asgRank_spec hcg
  rw [List.getD_eq_getElem _ _ hlt] at heq
  exact List.Nodup.getElem_inj_iff hnd |>.mp heq

theorem mem_childRowFns_iff {a : List (List Nat)} {col i : Nat} :
    ∀ {ch : List BRWT} {k : Nat},
    (col ∈ ((childRowFns a k ch).map (fun f => f i)).flatten ↔
      ∃ j x, ch[j]? = some x ∧ ∃ lc ∈ getRow x i, asgGet a (k + j) lc = col) := by
  intro ch
  induction ch with
  | nil => intro k; simp [childRowFns]
  | cons c rest ih =>
    intro k
    rw [childRowFns]
    simp only [List.map_cons, List.flatten_cons, List.mem_append, List.mem_map]
    constructor
    · rintro (⟨lc, hlc, heq⟩ | hrest)
      · exact ⟨0, c, by simp, lc, hlc, by simpa using heq⟩
      · obtain ⟨j, x, hx, lc, hlc, heq⟩ := (ih (k := k + 1)).mp hrest
        exact ⟨j + 1, x, by simpa using hx, lc, hlc, by
          have : k + 1 + j = k + (j + 1) := by omega
          rw [← this]
          exact heq⟩
    · rintro ⟨j, x, hx, lc, hlc, heq⟩
      cases j with
      | zero =>
        left
        refine ⟨lc, ?_, ?_⟩
        · simp only [List.getElem?_cons_zero, Option.some.injEq] at hx
          rw [hx]
          exact hlc
        · simpa using heq
      | succ j =>
        right
        refine (ih (k := k + 1)).mpr ⟨j, x, by simpa using hx, lc, hlc, ?_⟩
        have : k + 1 + j = k + (j + 1) := by omega
        rw [this]
        exact heq

theorem mem_flatten_lt_of_perm {a : List (List Nat)}
    (hp : List.Perm a.flatten (List.range a.flatten.length)) {col : Nat}
    (h : col ∈ a.flatten) : col < a.flatten.length := by
  have := hp.mem_iff.mp h
  simpa using this

theorem lt_mem_flatten_of_perm {a : List (List Nat)}
    (hp : List.Perm a.flatten (List.range a.flatten.length)) {col : Nat}
    (h : col < a.flatten.length) : col ∈ a.flatten := by
  exact hp.mem_iff.mpr (by simpa using h)

/-- Every column reported by `get_row` is a valid column index of the
subtree. -/
theorem getD_eq_of_getElemQ {ch : List BRWT} {j : Nat} {x : BRWT} (hx : ch[j]? = some x) :
    ch.getD j default = x := by
  have hj : j < ch.length := by
    by_contra hge
    rw [List.getElem?_eq_none (by omega)] at hx
    cases hx
  rw [List.getD_eq_getElem _ _ hj]
  rw [List.getElem?_eq_getElem hj, Option.some.injEq] at hx
  exact hx

theorem lt_length_of_getElemQ {ch : List BRWT} {j : Nat} {x : BRWT} (hx : ch[j]? = some x) :
    j < ch.length := by
  by_contra hge
  rw [List.getElem?_eq_none (by omega)] at hx
  cases hx

theorem asgGet_mem_flatten {a : List (List Nat)} {j lc : Nat} (hj : j < a.length)
    (hlc : lc < (a.getD j []).length) : asgGet a j lc ∈ a.flatten := by
  rw [asgGet]
  apply List.mem_flatten.mpr
  refine ⟨a.getD j [], ?_, ?_⟩
  · rw [List.getD_eq_getElem _ _ hj]
    exact List.getElem_mem hj
  · rw [List.getD_eq_getElem _ _ hlc]
    exact List.getElem_mem hlc

theorem getRow_lt_numCols : ∀ (t : BRWT), wf t = true → ∀ (r : Nat),
    ∀ col ∈ getRow t r, col < numCols t := by
  suffices key : ∀ n t, sizeOf t = n → wf t = true → ∀ r col, col ∈ getRow t r →
      col < numCols t from fun t hwf r col hc => key (sizeOf t) t rfl hwf r col hc
  intro n
  induction n using Nat.strong_induction_on with
  | _ n IH =>
  intro t hs hwf r col hcol
  cases t with
  | node nz a ch =>
  cases ch with
  | nil =>
    rw [getRow_leaf] at hcol
    rw [numCols]
    by_cases hb : nz.getD r false = true
    · rw [hb] at hcol
      simp at hcol
      omega
    · have hb2 : nz.getD r false = false := by
        cases h : nz.getD r false
        · rfl
        · exact absurd h hb
      rw [hb2] at hcol
      simp at hcol
  | cons c cs =>
    obtain ⟨hlen, hperm, hglen, hkids⟩ := wf_node_iff.mp hwf
    by_cases hb : nz.getD r false = true
    · rw [getRow_node_bit hb] at hcol
      obtain ⟨j, x, hx, lc, hlc, heq⟩ := mem_childRowFns_iff.mp hcol
      have hjlen : j < (c :: cs).length := lt_length_of_getElemQ hx
      have hxmem : x ∈ c :: cs := List.getElem?_mem hx
      have hszlt : sizeOf x < n := by
        have := List.sizeOf_lt_of_mem hxmem
        subst hs
        simp only [BRWT.node.sizeOf_spec]
        omega
      have hlc_lt : lc < numCols x :=
        IH (sizeOf x) hszlt x rfl (hkids x hxmem).2 (conditionalRank1 nz r - 1) lc hlc
      have hglen2 : (a.getD j []).length = numCols x := by
        have h1 := hglen j (by omega)
        rw [getD_eq_of_getElemQ hx] at h1
        exact h1
      have hmem : asgGet a j lc ∈ a.flatten :=
        asgGet_mem_flatten (by omega) (by omega)
      have : col ∈ a.flatten := by
        rw [← heq]
        simpa using hmem
      rw [numCols]
      exact mem_flatten_lt_of_perm hperm this
    · have hb2 : nz.getD r false = false := by
        cases h : nz.getD r false
        · rfl
        · exact absurd h hb
      rw [getRow_bit_false hb2] at hcol
      cases hcol

/-- `BRWT::get(r, c)` holds exactly when `c` appears in `get_row(r)`. -/
theorem get_iff_mem_getRow : ∀ (t : BRWT), wf t = true → ∀ (r col : Nat),
    col < numCols t → (get t r col = true ↔ col ∈ getRow t r) := by
  suffices key : ∀ n t, sizeOf t = n → wf t = true → ∀ r col, col < numCols t →
      (get t r col = true ↔ col ∈ getRow t r) from
    fun t hwf r col hc => key (sizeOf t) t rfl hwf r col hc
  intro n
  induction n using Nat.strong_induction_on with
  | _ n IH =>
  intro t hs hwf r col hc
  cases t with
  | node nz a ch =>
  cases ch with
  | nil =>
    rw [numCols] at hc
    have hcol0 : col = 0 := by omega
    subst hcol0
    rw [get.eq_def]
    dsimp only
    rw [getRow_leaf]
    by_cases hb : nz.getD r false = true
    · rw [hb]
      simp
    · have hb2 : nz.getD r false = false := by
        cases h : nz.getD r false
        · rfl
        · exact absurd h hb
      rw [hb2]
      simp
  | cons c cs =>
    obtain ⟨hlen, hperm, hglen, hkids⟩ := wf_node_iff.mp hwf
    have hnd : a.flatten.Nodup := flatten_nodup_of_perm_range hperm
    by_cases hb : nz.getD r false = true
    · have hpos := rank1_pos_of_bit hb
      rw [numCols] at hc
      have hcolmem : col ∈ a.flatten := lt_mem_flatten_of_perm hperm hc
      obtain ⟨hj0, hcg0⟩ := asgGroup_spec hcolmem
      rw [get.eq_def]
      dsimp only
      rw [conditionalRank1_of_bit hb, if_neg (by omega)]
      rw [getRow_node_bit hb, conditionalRank1_of_bit hb]
      rw [mem_childRowFns_iff]
      split
      case _ child heq =>
        have hchildmem : child ∈ c :: cs := List.getElem?_mem heq
        have hszlt : sizeOf child < n := by
          have := List.sizeOf_lt_of_mem hchildmem
          subst hs
          simp only [BRWT.node.sizeOf_spec]
          omega
        have hwfc : wf child = true := (hkids child hchildmem).2
        have hglenc : (a.getD (asgGroup a col) []).length = numCols child := by
          have h1 := hglen (asgGroup a col) hj0
          rw [getD_eq_of_getElemQ heq] at h1
          exact h1
        obtain ⟨hrklt, hrkval⟩ := asgRank_spec hcg0
        constructor
        · intro hget
          have hmem := (IH (sizeOf child) hszlt child rfl hwfc (rank1 nz r - 1)
            (asgRank a col) (by rw [asgRank]; omega)).mp hget
          refine ⟨asgGroup a col, child, heq, asgRank a col, hmem, ?_⟩
          simp only [Nat.zero_add, asgGet, asgRank]
          exact hrkval
        · rintro ⟨j, x, hx, lc, hlc, heq2⟩
          have hxmem : x ∈ c :: cs := List.getElem?_mem hx
          have hjlen : j < (c :: cs).length := lt_length_of_getElemQ hx
          have hszx : sizeOf x < n := by
            have := List.sizeOf_lt_of_mem hxmem
            subst hs
            simp only [BRWT.node.sizeOf_spec]
            omega
          have hwfx : wf x = true := (hkids x hxmem).2
          have hlc_lt : lc < numCols x :=
            getRow_lt_numCols x hwfx (rank1 nz r - 1) lc hlc
          have hglenx : (a.getD j []).length = numCols x := by
            have h1 := hglen j (by omega)
            rw [getD_eq_of_getElemQ hx] at h1
            exact h1
          have hcol_getD : col = (a.getD j []).getD lc 0 := by
            rw [← heq2]
            simp [asgGet]
          have hlc_glt : lc < (a.getD j []).length := by omega
          have hcol_mem_gj : col ∈ a.getD j [] := by
            rw [hcol_getD, List.getD_eq_getElem (a.getD j []) 0 hlc_glt]
            exact List.getElem_mem hlc_glt
          have hgroup_eq : asgGroup a col = j :=
            asgGroup_unique hnd (by omega) hcol_mem_gj hcolmem
          have hchild_eq : child = x := by
            rw [hgroup_eq] at heq
            rw [heq] at hx
            exact (Option.some.injEq _ _).mp hx
          have hgnd : (a.getD j []).Nodup := by
            have hmem_a : a.getD j [] ∈ a := by
              rw [List.getD_eq_getElem _ _ (by omega : j < a.length)]
              exact List.getElem_mem _
            exact (List.nodup_flatten.mp hnd).1 _ hmem_a
          have hrank_eq : asgRank a col = lc := by
            rw [asgRank, hgroup_eq]
            have hcol_at : col = (a.getD j [])[lc] := by
              rw [hcol_getD, List.getD_eq_getElem (a.getD j []) 0 hlc_glt]
            rw [hcol_at]
            exact asgRank_inverse hgnd hlc_glt
          rw [hchild_eq, hrank_eq]
          exact (IH (sizeOf x) hszx x rfl hwfx (rank1 nz r - 1) lc (by omega)).mpr hlc
      case _ heq =>
        rw [List.getElem?_eq_none_iff] at heq
        omega
    · have hb2 : nz.getD r false = false := by
        cases h : nz.getD r false
        · rfl
        · exact absurd h hb
      rw [get.eq_def]
      dsimp only
      rw [conditionalRank1_of_not_bit hb2, if_pos rfl, getRow_bit_false hb2]
      simp

theorem numRows_node (nz : List Bool) (a : List (List Nat)) (ch : List BRWT) :
    numRows (BRWT.node nz a ch) = nz.length := rfl

/-- Every row reported by `get_column` is a valid row index of the subtree. -/
theorem getColumn_lt_numRows : ∀ (t : BRWT), wf t = true → ∀ (col : Nat),
    ∀ r ∈ getColumn t col, r < numRows t := by
  suffices key : ∀ n t, sizeOf t = n → wf t = true → ∀ col r, r ∈ getColumn t col →
      r < numRows t from fun t hwf col r hr => key (sizeOf t) t rfl hwf col r hr
  intro n
  induction n using Nat.strong_induction_on with
  | _ n IH =>
  intro t hs hwf col r hr
  cases t with
  | node nz a ch =>
  cases ch with
  | nil =>
    rw [getColumn.eq_def] at hr
    dsimp only at hr
    by_cases hcz : countOnes nz = 0
    · rw [if_pos hcz] at hr
      cases hr
    · rw [if_neg hcz] at hr
      rw [numRows_node]
      exact (mem_onesPositions.mp hr).1
  | cons c cs =>
    rw [getColumn.eq_def] at hr
    dsimp only at hr
    by_cases hcz : countOnes nz = 0
    · rw [if_pos hcz] at hr
      cases hr
    · rw [if_neg hcz] at hr
      obtain ⟨hlen, hperm, hglen, hkids⟩ := wf_node_iff.mp hwf
      rw [numRows_node]
      revert hr
      split
      case _ child heq =>
        intro hr
        have hchildmem : child ∈ c :: cs := List.getElem?_mem heq
        have hszlt : sizeOf child < n := by
          have := List.sizeOf_lt_of_mem hchildmem
          subst hs
          simp only [BRWT.node.sizeOf_spec]
          omega
        have hnr : numRows child = countOnes nz := (hkids child hchildmem).1
        have hcnt : countOnes nz ≤ nz.length := List.count_le_length true nz
        by_cases hall : countOnes nz = nz.length
        · rw [if_pos hall] at hr
          have := IH (sizeOf child) hszlt child rfl (hkids child hchildmem).2 _ r hr
          omega
        · rw [if_neg hall] at hr
          obtain ⟨r2, hr2, hsel⟩ := List.mem_map.mp hr
          have hr2lt := IH (sizeOf child) hszlt child rfl (hkids child hchildmem).2 _ r2 hr2
          have := (@select1_spec nz (r2 + 1) (by omega) (by omega)).2.2
          omega
      case _ heq =>
        intro hr
        cases hr

/-- `BRWT::get(r, c)` holds exactly when `r` appears in `get_column(c)`. -/
theorem get_iff_mem_getColumn : ∀ (t : BRWT), wf t = true → ∀ (r col : Nat),
    r < numRows t → col < numCols t → (get t r col = true ↔ r ∈ getColumn t col) := by
  suffices key : ∀ n t, sizeOf t = n → wf t = true → ∀ r col, r < numRows t →
      col < numCols t → (get t r col = true ↔ r ∈ getColumn t col) from
    fun t hwf r col hr hc => key (sizeOf t) t rfl hwf r col hr hc
  intro n
  induction n using Nat.strong_induction_on with
  | _ n IH =>
  intro t hs hwf r col hr hc
  cases t with
  | node nz a ch =>
  rw [numRows_node] at hr
  cases ch with
  | nil =>
    rw [getColumn.eq_def]
    dsimp only
    by_cases hcz : countOnes nz = 0
    · rw [if_pos hcz]
      have hb : nz.getD r false = false := bit_false_of_countOnes_zero hcz r
      rw [get.eq_def]
      dsimp only
      rw [hb]
      simp
    · rw [if_neg hcz]
      rw [get.eq_def]
      dsimp only
      rw [mem_onesPositions]
      by_cases hb : nz.getD r false = true
      · rw [hb]
        have hlen2 : r < nz.length := hr
        simp [hlen2, hb]
      · have hb2 : nz.getD r false = false := by
          cases h : nz.getD r false
          · rfl
          · exact absurd h hb
        rw [hb2]
        simp [hb2]
  | cons c cs =>
    rw [getColumn.eq_def]
    dsimp only
    by_cases hcz : countOnes nz = 0
    · rw [if_pos hcz]
      have hb : nz.getD r false = false := bit_false_of_countOnes_zero hcz r
      rw [get.eq_def]
      dsimp only
      rw [conditionalRank1_of_not_bit hb, if_pos rfl]
      simp
    · rw [if_neg hcz]
      obtain ⟨hlen, hperm, hglen, hkids⟩ := wf_node_iff.mp hwf
      have hnd : a.flatten.Nodup := flatten_nodup_of_perm_range hperm
      rw [numCols] at hc
      have hcolmem : col ∈ a.flatten := lt_mem_flatten_of_perm hperm hc
      obtain ⟨hj0, hcg0⟩ := asgGroup_spec hcolmem
      split
      case _ child heq =>
        have hchildmem : child ∈ c :: cs := List.getElem?_mem heq
        have hszlt : sizeOf child < n := by
          have := List.sizeOf_lt_of_mem hchildmem
          subst hs
          simp only [BRWT.node.sizeOf_spec]
          omega
        have hwfc : wf child = true := (hkids child hchildmem).2
        have hnr : numRows child = countOnes nz := (hkids child hchildmem).1
        have hglenc : (a.getD (asgGroup a col) []).length = numCols child := by
          have h1 := hglen (asgGroup a col) hj0
          rw [getD_eq_of_getElemQ heq] at h1
          exact h1
        obtain ⟨hrklt, hrkval⟩ := asgRank_spec hcg0
        have hcnt : countOnes nz ≤ nz.length := List.count_le_length true nz
        by_cases hb : nz.getD r false = true
        · have hpos := rank1_pos_of_bit hb
          have hrle := rank1_le_countOnes nz r
          have hget : get (BRWT.node nz a (c :: cs)) r col
              = get child (rank1 nz r - 1) (asgRank a col) := by
            rw [get.eq_def]
            dsimp only
            rw [conditionalRank1_of_bit hb, if_neg (by omega)]
            split
            case _ child2 heq2 =>
              rw [heq] at heq2
              rw [(Option.some.injEq _ _).mp heq2]
            case _ heq2 =>
              rw [List.getElem?_eq_none_iff] at heq2
              omega
          rw [hget]
          have hih := IH (sizeOf child) hszlt child rfl hwfc (rank1 nz r - 1)
            (asgRank a col) (by omega) (by rw [asgRank]; omega)
          by_cases hall : countOnes nz = nz.length
          · rw [if_pos hall]
            have hrk : rank1 nz r = r + 1 := rank1_all_ones hall hr
            rw [hih, hrk]
            simp
          · rw [if_neg hall]
            rw [hih]
            constructor
            · intro hmem
              refine List.mem_map.mpr ⟨rank1 nz r - 1, hmem, ?_⟩
              have hb1 : rank1 nz r - 1 + 1 = rank1 nz r := by omega
              rw [hb1]
              exact select1_rank1_of_bit hb
            · intro hmem
              obtain ⟨r2, hr2, hsel⟩ := List.mem_map.mp hmem
              have hr2lt : r2 < numRows child :=
                getColumn_lt_numRows child hwfc _ r2 hr2
              obtain ⟨hbit2, hrank2, hlt2⟩ :=
                @select1_spec nz (r2 + 1) (by omega) (by omega)
              rw [hsel] at hrank2
              have : rank1 nz r - 1 = r2 := by omega
              rw [this]
              exact hr2
        · have hb2 : nz.getD r false = false := by
            cases h : nz.getD r false
            · rfl
            · exact absurd h hb
          have hget : get (BRWT.node nz a (c :: cs)) r col = false := by
            rw [get.eq_def]
            dsimp only
            rw [conditionalRank1_of_not_bit hb2, if_pos rfl]
          rw [hget]
          by_cases hall : countOnes nz = nz.length
          · exact absurd (bit_true_of_all_ones hall hr) (by rw [hb2]; simp)
          · rw [if_neg hall]
            constructor
            · intro hfalse
              cases hfalse
            · intro hmem
              obtain ⟨r2, hr2, hsel⟩ := List.mem_map.mp hmem
              have hr2lt : r2 < numRows child :=
                getColumn_lt_numRows child hwfc _ r2 hr2
              have hnr2 : numRows child = countOnes nz := hnr
              obtain ⟨hbit2, hrank2, hlt2⟩ :=
                @select1_spec nz (r2 + 1) (by omega) (by omega)
              rw [hsel] at hbit2
              rw [hb2] at hbit2
              cases hbit2
      case _ heq =>
        rw [List.getElem?_eq_none_iff] at heq
        omega

/-- C3: for a well-formed BRWT, every row `r` and column `c` in range, the
three query operations are mutually consistent — `get(r, c)` holds iff
`get_row(r)` contains `c` iff `get_column(c)` contains `r` — and the
batched query `get_rows` returns exactly the list of `get_row` results for
the queried rows. -/
theorem C3_brwt_query_consistency (t : BRWT) (hwf : wf t = true) (r col : Nat)
    (hr : r < numRows t) (hc : col < numCols t) :
    (get t r col = true ↔ col ∈ getRow t r)
      ∧ (get t r col = true ↔ r ∈ getColumn t col)
      ∧ ∀ rows : List Nat, getRows t rows = rows.map (getRow t) :=
  ⟨get_iff_mem_getRow t hwf r col hc,
    get_iff_mem_getColumn t hwf r col hr hc,
    fun rows => getRows_eq_map_getRow t rows⟩

theorem wf_exLeaf00 : wf exLeaf00 = true := wf_leaf_iff.mpr rfl

theorem wf_exLeaf01 : wf exLeaf01 = true := wf_leaf_iff.mpr rfl

theorem wf_exLeaf12 : wf exLeaf12 = true := wf_leaf_iff.mpr rfl

theorem wf_exLeaf13 : wf exLeaf13 = true := wf_leaf_iff.mpr rfl

theorem wf_exChild0 : wf exChild0 = true := by
  rw [exChild0]
  refine wf_node_iff.mpr ⟨by decide, by decide, by decide, ?_⟩
  intro x hx
  simp only [List.mem_cons, List.not_mem_nil, or_false] at hx
  rcases hx with rfl | rfl
  · exact ⟨by decide, wf_exLeaf00⟩
  · exact ⟨by decide, wf_exLeaf01⟩

theorem wf_exChild1 : wf exChild1 = true := by
  rw [exChild1]
  refine wf_node_iff.mpr ⟨by decide, by decide, by decide, ?_⟩
  intro x hx
  simp only [List.mem_cons, List.not_mem_nil, or_false] at hx
  rcases hx with rfl | rfl
  · exact ⟨by decide, wf_exLeaf12⟩
  · exact ⟨by decide, wf_exLeaf13⟩

theorem wf_exRoot : wf exRoot = true := by
  rw [exRoot]
  refine wf_node_iff.mpr ⟨by decide, by decide, by decide, ?_⟩
  intro x hx
  simp only [List.mem_cons, List.not_mem_nil, or_false] at hx
  rcases hx with rfl | rfl
  · exact ⟨by decide, wf_exChild0⟩
  · exact ⟨by decide, wf_exChild1⟩

/-- C3, witness: the consistency theorem applied to the concrete 4-by-4
example matrix of spec §8 scenario 1, at row 1 and column 3. -/
theorem C3_brwt_query_consistency_witness :
    wf exRoot = true ∧ (1 : Nat) < numRows exRoot ∧ (3 : Nat) < numCols exRoot
      ∧ ((get exRoot 1 3 = true ↔ 3 ∈ getRow exRoot 1)
        ∧ (get exRoot 1 3 = true ↔ 1 ∈ getColumn exRoot 3)
        ∧ ∀ rows : List Nat, getRows exRoot rows = rows.map (getRow exRoot)) :=
  ⟨wf_exRoot, by decide, by decide,
    C3_brwt_query_consistency exRoot wf_exRoot 1 3 (by decide) (by decide)⟩

end BRWT

/-! ### Serialization round-trip and load validation -/

theorem childCountOkList_iff {ch : List BRWT} :
    childCountOkList ch = true ↔ ∀ c ∈ ch, childCountOk c = true := by
  induction ch with
  | nil => simp [childCountOkList]
  | cons c rest ih =>
    rw [childCountOkList]
    simp only [Bool.and_eq_true, ih, List.mem_cons]
    constructor
    · rintro ⟨h1, h2⟩ x (rfl | hx)
      · exact h1
      · exact h2 x hx
    · intro h
      exact ⟨h c (Or.inl rfl), fun x hx => h x (Or.inr hx)⟩

theorem childCountOk_node_iff {nz : List Bool} {a : List (List Nat)} {ch : List BRWT} :
    childCountOk (BRWT.node nz a ch) = true ↔
      ((ch.length = 0 ∨ ch.length = a.length) ∧ ∀ c ∈ ch, childCountOk c = true) := by
  rw [childCountOk]
  simp only [Bool.and_eq_true, Bool.or_eq_true, decide_eq_true_eq, childCountOkList_iff]

theorem heightBRWT_le_of_mem {ch : List BRWT} {c : BRWT} (h : c ∈ ch) :
    heightBRWT c ≤ heightList ch := by
  induction ch with
  | nil => cases h
  | cons x rest ih =>
    rw [heightList]
    simp only [List.mem_cons] at h
    rcases h with rfl | h
    · omega
    · have := ih h
      omega

theorem loadChildren_serializeChildren (fuel : Nat) :
    ∀ ch : List BRWT,
    (∀ c ∈ ch, ∀ rest, loadBRWT fuel (serializeBRWT c ++ rest) = some (c, rest)) →
    ∀ rest, loadChildren fuel ch.length (serializeChildren ch ++ rest) = some (ch, rest) := by
  intro ch
  induction ch with
  | nil =>
    intro _ rest
    rw [serializeChildren]
    simp only [List.length_nil, List.nil_append]
    rw [loadChildren]
  | cons c rest2 ih =>
    intro hyp rest
    rw [serializeChildren, List.length_cons, List.append_assoc]
    rw [loadChildren]
    rw [hyp c (by simp)]
    dsimp only
    rw [ih (fun x hx r => hyp x (by simp [hx]) r)]

/-- Loading a serialized well-formed BRWT with enough fuel recovers the
tree and the trailing stream exactly. -/
theorem loadBRWT_serialize : ∀ (t : BRWT) (fuel : Nat), heightBRWT t ≤ fuel →
    childCountOk t = true →
    ∀ rest, loadBRWT fuel (serializeBRWT t ++ rest) = some (t, rest) := by
  suffices key : ∀ n t, sizeOf t = n → ∀ fuel, heightBRWT t ≤ fuel →
      childCountOk t = true →
      ∀ rest, loadBRWT fuel (serializeBRWT t ++ rest) = some (t, rest) from
    fun t fuel hh hok rest => key (sizeOf t) t rfl fuel hh hok rest
  intro n
  induction n using Nat.strong_induction_on with
  | _ n IH =>
  intro t hs fuel hh hok rest
  cases t with
  | node nz a ch =>
  rw [heightBRWT] at hh
  cases fuel with
  | zero => omega
  | succ f =>
    obtain ⟨hcnt, hkids⟩ := childCountOk_node_iff.mp hok
    rw [serializeBRWT, List.cons_append, List.cons_append, List.cons_append]
    rw [loadBRWT]
    have hchild : ∀ c ∈ ch, ∀ r2, loadBRWT f (serializeBRWT c ++ r2) = some (c, r2) := by
      intro c hc r2
      have hszlt : sizeOf c < n := by
        have := List.sizeOf_lt_of_mem hc
        subst hs
        simp only [BRWT.node.sizeOf_spec]
        omega
      have hhc : heightBRWT c ≤ f := by
        have := heightBRWT_le_of_mem hc
        omega
      exact IH (sizeOf c) hszlt c rfl f hhc (hkids c hc) r2
    rw [loadChildren_serializeChildren f ch hchild rest]
    dsimp only
    rw [if_pos hcnt]

/-- C2: serializing an annotation matrix and loading it back yields an
equal matrix.  For the BRWT variant, `load` after `serialize` returns
exactly the original tree with the stream advanced past it, so `get_row`,
`get_column` and `get_rows` agree row-for-row and column-for-column; for
the row-diff wrapped variants (`IntRowDiff` / `TupleRowDiff`),
`load` after `serialize` returns exactly the original anchor bit vector,
fork-successor bit vector and base matrix. -/
theorem C2_serialize_load_roundtrip (t : BRWT) (m : RowDiffFile) (fuel : Nat)
    (hh : heightBRWT t ≤ fuel) (hok : childCountOk t = true)
    (hhm : heightBRWT m.base ≤ fuel) (hokm : childCountOk m.base = true) :
    (∀ rest, ∃ loaded rest2,
        loadBRWT fuel (serializeBRWT t ++ rest) = some (loaded, rest2)
          ∧ rest2 = rest
          ∧ (∀ r, BRWT.getRow loaded r = BRWT.getRow t r)
          ∧ (∀ col, BRWT.getColumn loaded col = BRWT.getColumn t col)
          ∧ (∀ rows, BRWT.getRows loaded rows = BRWT.getRows t rows))
      ∧ ∀ rest, loadRowDiff fuel (serializeRowDiff m ++ rest) = some (m, rest) := by
  constructor
  · intro rest
    exact ⟨t, rest, loadBRWT_serialize t fuel hh hok rest, rfl,
      fun _ => rfl, fun _ => rfl, fun _ => rfl⟩
  · intro rest
    simp only [serializeRowDiff, versionTag, List.cons_append, List.nil_append,
      List.append_assoc]
    rw [loadRowDiff]
    rw [loadBRWT_serialize m.base fuel hhm hokm rest]

/-- C2, witness: the round-trip theorem applied to the concrete example
matrix and a concrete row-diff file over one of its subtrees. -/
theorem C2_serialize_load_roundtrip_witness :
    heightBRWT BRWT.exRoot ≤ 8 ∧ childCountOk BRWT.exRoot = true
      ∧ heightBRWT BRWT.exChild1 ≤ 8 ∧ childCountOk BRWT.exChild1 = true
      ∧ ((∀ rest, ∃ loaded rest2,
          loadBRWT 8 (serializeBRWT BRWT.exRoot ++ rest) = some (loaded, rest2)
            ∧ rest2 = rest
            ∧ (∀ r, BRWT.getRow loaded r = BRWT.getRow BRWT.exRoot r)
            ∧ (∀ col, BRWT.getColumn loaded col = BRWT.getColumn BRWT.exRoot col)
            ∧ (∀ rows, BRWT.getRows loaded rows = BRWT.getRows BRWT.exRoot rows))
        ∧ ∀ rest, loadRowDiff 8
            (serializeRowDiff ⟨[true, false, true, false], [false], BRWT.exChild1⟩ ++ rest)
          = some (⟨[true, false, true, false], [false], BRWT.exChild1⟩, rest)) := by
  have h1 : heightBRWT BRWT.exRoot ≤ 8 := by
    simp [BRWT.exRoot, BRWT.exChild0, BRWT.exChild1, BRWT.exLeaf00, BRWT.exLeaf01,
      BRWT.exLeaf12, BRWT.exLeaf13, heightBRWT, heightList]
  have h2 : childCountOk BRWT.exRoot = true := by
    simp [BRWT.exRoot, BRWT.exChild0, BRWT.exChild1, BRWT.exLeaf00, BRWT.exLeaf01,
      BRWT.exLeaf12, BRWT.exLeaf13, childCountOk, childCountOkList]
  have h3 : heightBRWT BRWT.exChild1 ≤ 8 := by
    simp [BRWT.exChild1, BRWT.exLeaf12, BRWT.exLeaf13, heightBRWT, heightList]
  have h4 : childCountOk BRWT.exChild1 = true := by
    simp [BRWT.exChild1, BRWT.exLeaf12, BRWT.exLeaf13, childCountOk, childCountOkList]
  exact ⟨h1, h2, h3, h4,
    C2_serialize_load_roundtrip BRWT.exRoot
      ⟨[true, false, true, false], [false], BRWT.exChild1⟩ 8 h1 h2 h3 h4⟩

theorem loadChildren_ok_of (fuel : Nat)
    (hb : ∀ s t rest, loadBRWT fuel s = some (t, rest) → childCountOk t = true) :
    ∀ (n : Nat) (s : List Tok) (ch : List BRWT) (rest : List Tok),
      loadChildren fuel n s = some (ch, rest) → ∀ c ∈ ch, childCountOk c = true := by
  intro n
  induction n with
  | zero =>
    intro s ch rest h c hc
    rw [loadChildren] at h
    injection h with h2
    injection h2 with h3 h4
    subst h3
    cases hc
  | succ n ih =>
    intro s ch rest h c hc
    rw [loadChildren] at h
    cases hb1 : loadBRWT fuel s with
    | none =>
      rw [hb1] at h
      cases h
    | some p =>
      rw [hb1] at h
      obtain ⟨t, s2⟩ := p
      dsimp only at h
      cases hb2 : loadChildren fuel n s2 with
      | none =>
        rw [hb2] at h
        cases h
      | some q =>
        rw [hb2] at h
        obtain ⟨ch2, s3⟩ := q
        dsimp only at h
        injection h with h2
        injection h2 with h3 h4
        subst h3
        simp only [List.mem_cons] at hc
        rcases hc with rfl | hc2
        · exact hb _ _ _ hb1
        · exact ih s2 ch2 s3 hb2 c hc2

/-- Any tree reported as successfully loaded by `BRWT::load` satisfies the
child-count invariant at every node: the load rejects any node whose
recorded child count is neither 0 nor the number of assignment groups. -/
theorem loadBRWT_childCountOk :
    ∀ (fuel : Nat) (s : List Tok) (t : BRWT) (rest : List Tok),
    loadBRWT fuel s = some (t, rest) → childCountOk t = true := by
  intro fuel
  induction fuel with
  | zero =>
    intro s t rest h
    rw [loadBRWT] at h
    cases h
  | succ f ih =>
    intro s t rest h
    rw [loadBRWT.eq_def] at h
    cases s with
    | nil => exact absurd h (by simp)
    | cons t1 s1 =>
      cases s1 with
      | nil => cases t1 <;> exact absurd h (by simp)
      | cons t2 s2 =>
        cases s2 with
        | nil => cases t1 <;> cases t2 <;> exact absurd h (by simp)
        | cons t3 s3 =>
          cases t1 <;> cases t2 <;> cases t3 <;>
            first
            | (dsimp only at h; cases h)
            | skip
          rename_i a v n
          dsimp only at h
          cases hc : loadChildren f n s3 with
          | none =>
            rw [hc] at h
            dsimp only at h
            cases h
          | some q =>
            rw [hc] at h
            obtain ⟨ch, rest2⟩ := q
            dsimp only at h
            split at h
            case _ hcnt =>
              injection h with h2
              injection h2 with h3 h4
              subst h3
              refine childCountOk_node_iff.mpr ⟨hcnt, ?_⟩
              exact loadChildren_ok_of f ih n s3 ch rest2 hc
            case _ =>
              cases h

/-- C7: `BRWT::load` rejects (returns false on) every serialized node whose
recorded children count is neither 0 nor equal to the number of column
groups of its assignments, at any depth of the tree; it also fails — with
no partially loaded node reported as success — on a truncated or malformed
stream, when any component fails to load, and on exhausted recursion depth
(the model of an exception): whenever it does report success, every node of
the returned tree satisfies the child-count invariant. -/
theorem C7_load_rejects_bad_child_count (fuel : Nat) (s : List Tok) (t : BRWT)
    (rest : List Tok) (h : loadBRWT fuel s = some (t, rest)) :
    childCountOk t = true :=
  loadBRWT_childCountOk fuel s t rest h

/-- C7, witness: a successful load (of the serialized example matrix), to
which the validation theorem applies. -/
theorem C7_load_rejects_bad_child_count_witness :
    loadBRWT 8 (serializeBRWT BRWT.exRoot ++ []) = some (BRWT.exRoot, [])
      ∧ childCountOk BRWT.exRoot = true := by
  have h1 : heightBRWT BRWT.exRoot ≤ 8 := by
    simp [BRWT.exRoot, BRWT.exChild0, BRWT.exChild1, BRWT.exLeaf00, BRWT.exLeaf01,
      BRWT.exLeaf12, BRWT.exLeaf13, heightBRWT, heightList]
  have h2 : childCountOk BRWT.exRoot = true := by
    simp [BRWT.exRoot, BRWT.exChild0, BRWT.exChild1, BRWT.exLeaf00, BRWT.exLeaf01,
      BRWT.exLeaf12, BRWT.exLeaf13, childCountOk, childCountOkList]
  have hload := loadBRWT_serialize BRWT.exRoot 8 h1 h2 []
  exact ⟨hload, C7_load_rejects_bad_child_count 8 _ _ _ hload⟩

/-! ### The row-diff loaders ignore the version tag -/

theorem loadRowDiff_eq_tail (fuel : Nat) (x1 x2 x3 x4 : Tok) (rest : List Tok) :
    loadRowDiff fuel (x1 :: x2 :: x3 :: x4 :: rest) = loadRowDiffTail fuel rest := by
  cases rest with
  | nil => rfl
  | cons t1 rest1 =>
    cases t1 with
    | bv a =>
      cases rest1 with
      | nil => rfl
      | cons t2 rest2 =>
        cases t2 <;> rfl
    | byte b => rfl
    | asg a => rfl
    | num n => rfl

/-- C10: the row-diff loaders (`IntRowDiff::load`, `TupleRowDiff::load`)
read and discard the first 4 bytes without comparing them to the magic
string "v2.0": the result of a load is the same for any two 4-byte
prefixes, and the load succeeds exactly when the anchor bit vector, the
fork-successor bit vector and the base matrix all load from the remainder
of the stream. -/
theorem C10_version_tag_ignored :
    (∀ (p1 p2 rest : List Tok) (fuel : Nat), p1.length = 4 → p2.length = 4 →
        loadRowDiff fuel (p1 ++ rest) = loadRowDiff fuel (p2 ++ rest))
      ∧ (∀ (b1 b2 b3 b4 : Tok) (a f : List Bool) (s : List Tok) (fuel : Nat),
          loadRowDiff fuel (b1 :: b2 :: b3 :: b4 :: Tok.bv a :: Tok.bv f :: s)
            = match loadBRWT fuel s with
              | some (b, rest2) => some (⟨a, f, b⟩, rest2)
              | none => none)
      ∧ ∀ (p rest : List Tok) (fuel : Nat), p.length = 4 →
          ((loadRowDiff fuel (p ++ rest)).isSome = true ↔
            ∃ a f s, rest = Tok.bv a :: Tok.bv f :: s
              ∧ (loadBRWT fuel s).isSome = true) := by
  have hfour : ∀ p : List Tok, p.length = 4 →
      ∃ x1 x2 x3 x4, p = [x1, x2, x3, x4] := by
    intro p hp
    match p, hp with
    | [x1, x2, x3, x4], _ => exact ⟨x1, x2, x3, x4, rfl⟩
  have htail_shape : ∀ (fuel : Nat) (rest : List Tok),
      (loadRowDiffTail fuel rest).isSome = true ↔
        ∃ a f s, rest = Tok.bv a :: Tok.bv f :: s ∧ (loadBRWT fuel s).isSome = true := by
    intro fuel rest
    cases rest with
    | nil => simp [loadRowDiffTail]
    | cons t1 rest1 =>
      cases t1 with
      | bv a =>
        cases rest1 with
        | nil => simp [loadRowDiffTail]
        | cons t2 rest2 =>
          cases t2 with
          | bv f =>
            rw [loadRowDiffTail]
            cases hb : loadBRWT fuel rest2 with
            | none => simp [hb]
            | some p =>
              obtain ⟨b, rest3⟩ := p
              simp only [hb]
              constructor
              · intro _
                exact ⟨a, f, rest2, rfl, by rw [hb]; rfl⟩
              · intro _
                rfl
          | byte b => simp [loadRowDiffTail]
          | asg a2 => simp [loadRowDiffTail]
          | num n => simp [loadRowDiffTail]
      | byte b => simp [loadRowDiffTail]
      | asg a2 => simp [loadRowDiffTail]
      | num n => simp [loadRowDiffTail]
  refine ⟨?_, ?_, ?_⟩
  · intro p1 p2 rest fuel h1 h2
    obtain ⟨a1, a2, a3, a4, rfl⟩ := hfour p1 h1
    obtain ⟨b1, b2, b3, b4, rfl⟩ := hfour p2 h2
    rw [List.cons_append, List.cons_append, List.cons_append, List.cons_append,
      List.nil_append, loadRowDiff_eq_tail]
    rw [List.cons_append, List.cons_append, List.cons_append, List.cons_append,
      List.nil_append, loadRowDiff_eq_tail]
  · intro b1 b2 b3 b4 a f s fuel
    rw [loadRowDiff_eq_tail, loadRowDiffTail]
  · intro p rest fuel hp
    obtain ⟨a1, a2, a3, a4, rfl⟩ := hfour p hp
    rw [List.cons_append, List.cons_append, List.cons_append, List.cons_append,
      List.nil_append, loadRowDiff_eq_tail]
    exact htail_shape fuel rest

/-- C10, witness: the theorem applied to the "v2.0" tag and an arbitrary
other 4-byte prefix, on a stream whose components load successfully. -/
theorem C10_version_tag_ignored_witness :
    versionTag.length = 4
      ∧ ([Tok.byte 0, Tok.byte 1, Tok.byte 2, Tok.byte 3] : List Tok).length = 4
      ∧ (∀ (rest : List Tok) (fuel : Nat),
          loadRowDiff fuel (versionTag ++ rest)
            = loadRowDiff fuel ([Tok.byte 0, Tok.byte 1, Tok.byte 2, Tok.byte 3] ++ rest))
      ∧ ((loadRowDiff 8 (versionTag
            ++ (Tok.bv [true] :: Tok.bv [] :: serializeBRWT BRWT.exChild1))).isSome = true ↔
          ∃ a f s, (Tok.bv [true] :: Tok.bv [] :: serializeBRWT BRWT.exChild1 : List Tok)
              = Tok.bv a :: Tok.bv f :: s ∧ (loadBRWT 8 s).isSome = true) := by
  refine ⟨rfl, rfl, ?_, ?_⟩
  · intro rest fuel
    exact C10_version_tag_ignored.1 versionTag
      [Tok.byte 0, Tok.byte 1, Tok.byte 2, Tok.byte 3] rest fuel rfl rfl
  · exact C10_version_tag_ignored.2.2 versionTag
      (Tok.bv [true] :: Tok.bv [] :: serializeBRWT BRWT.exChild1) 8 rfl

/-! ### The tuple row-diff decoder keeps empty tuples -/

/-- C1: (code bug) membership does NOT agree between the tuple row-diff
matrix and the logical matrix.  Scenario: two rows, row 1 is the anchor
with logical annotation `[(0, [1])]` (stored as-is), row 0 is annotated
with no columns at all and its row-diff successor is row 1.  The spec's
build rule stores for row 0 the delta `[(0, [1])]` (the per-column
symmetric difference against the successor, empty-result columns dropped).
Reconstructing row 0 walks the path anchor-first and applies `add_diff`,
whose merge loop — because the diff tuple is nonempty — pushes the entry
`(0, Tuple{})` even though the symmetric difference of the two equal
tuples is empty (tuple_row_diff.hpp lines 383-392).  The reconstructed row
is `[(0, [])]`: column 0 is reported set by `get` / `get_rows` while the
logical row 0 has no columns, and the code's own assertion that every
reconstructed tuple is nonempty (lines 129-130) is violated.  The anchor
row itself reconstructs correctly. -/
theorem C1_tuple_add_diff_keeps_empty_tuple :
    buildTupleDiff [] [(0, [1])] = [(0, [1])]
      ∧ reconstructTuples [(0, [1])] [buildTupleDiff [] [(0, [1])]] = [(0, [])]
      ∧ tupleRowGet (reconstructTuples [(0, [1])] [buildTupleDiff [] [(0, [1])]]) 0 = true
      ∧ tupleRowGet [] 0 = false
      ∧ allTuplesNonempty (reconstructTuples [(0, [1])] [buildTupleDiff [] [(0, [1])]])
          = false
      ∧ reconstructTuples [(0, [1])] [] = [(0, [1])] := by
  have hb : buildTupleDiff [] [(0, [1])] = [(0, [1])] := by
    simp [buildTupleDiff, shiftRow, columnSymDiff]
  have hm : addDiffMerge [(0, [1])] [(0, [1])] = [(0, [])] := by
    simp [addDiffMerge, symDiff]
  have hr : reconstructTuples [(0, [1])] [buildTupleDiff [] [(0, [1])]] = [(0, [])] := by
    simp [reconstructTuples, sortRT, insertRT, addDiff, hb, hm]
  refine ⟨hb, hr, ?_, ?_, ?_, ?_⟩
  · rw [hr, tupleRowGet, tupleRowToSetBits]
    simp [lowerBound]
  · rw [tupleRowGet, tupleRowToSetBits]
    simp [lowerBound]
  · rw [hr, allTuplesNonempty]
    simp
  · simp [reconstructTuples, sortRT, insertRT]

/-! ### The coverage gate emits the longest passing prefix -/

theorem takeWhile_map_eq {α β : Type} (f : α → β) (p : β → Bool) (l : List α) :
    (l.map f).takeWhile p = (l.takeWhile (fun a => p (f a))).map f := by
  induction l with
  | nil => rfl
  | cons a l ih =>
    simp only [List.map_cons, List.takeWhile_cons]
    cases hp : p (f a) <;> simp [hp, ih]

theorem takeWhile_append_all {α : Type} (p : α → Bool) (l1 l2 : List α)
    (h : l1.all p = true) : (l1 ++ l2).takeWhile p = l1 ++ l2.takeWhile p := by
  induction l1 with
  | nil => simp
  | cons a l ih =>
    simp only [List.all_cons, Bool.and_eq_true] at h
    simp [List.takeWhile_cons, h.1, ih h.2]

theorem takeWhile_append_not_all {α : Type} (p : α → Bool) (l1 l2 : List α)
    (h : l1.all p = false) : (l1 ++ l2).takeWhile p = l1.takeWhile p := by
  induction l1 with
  | nil => simp at h
  | cons a l ih =>
    cases hp : p a
    · simp [List.takeWhile_cons, hp]
    · simp only [List.all_cons, hp, Bool.true_and] at h
      simp [List.takeWhile_cons, hp, ih h]

theorem emitWhile_eq (minExact : ℚ) (qlen : Nat) (s : Int) (cs : List CChain) :
    emitWhile minExact qlen s cs
      = ((cs.takeWhile (passes minExact qlen)).map (fun c => (c, s)),
         !cs.all (passes minExact qlen)) := by
  induction cs with
  | nil => rfl
  | cons c cs ih =>
    rw [emitWhile]
    cases hp : passes minExact qlen c
    · simp [hp, List.takeWhile_cons]
    · simp [hp, List.takeWhile_cons, ih]

theorem all_map_eq {α β : Type} (f : α → β) (p : β → Bool) (l : List α) :
    (l.map f).all p = l.all (fun a => p (f a)) := by
  induction l with
  | nil => rfl
  | cons a l ih => simp [ih]

theorem chainSeq_cons (g : ChainGroup) (gs : List ChainGroup) :
    chainSeq (g :: gs)
      = (dedupAdj g.chains).map (fun c => (c, g.score)) ++ chainSeq gs := by
  simp [chainSeq]

theorem callSeedChainsEmit_eq (minExact : ℚ) (qlen : Nat) :
    ∀ gs : List ChainGroup,
    callSeedChainsEmit minExact qlen gs
      = (chainSeq gs).takeWhile (fun p => passes minExact qlen p.1) := by
  intro gs
  induction gs with
  | nil => rfl
  | cons g gs ih =>
    rw [callSeedChainsEmit, chainSeq_cons, emitWhile_eq]
    dsimp only
    cases hall : (dedupAdj g.chains).all (passes minExact qlen)
    · simp only [hall, Bool.not_false]
      rw [if_pos trivial]
      rw [takeWhile_append_not_all _ _ _ (by rw [all_map_eq]; exact hall),
        takeWhile_map_eq]
    · simp only [hall, Bool.not_true]
      rw [if_neg (by simp)]
      rw [takeWhile_append_all _ _ _ (by rw [all_map_eq]; exact hall), ← ih]
      congr 1
      have h3 : (dedupAdj g.chains).takeWhile (passes minExact qlen)
          = dedupAdj g.chains := by
        have h2 := takeWhile_append_all (passes minExact qlen) (dedupAdj g.chains) [] hall
        simpa using h2
      rw [h3]

/-- C5, counterexample: the claimed "if and only if" is false.  With query
length 100 and `min_exact_match = 0.38`, a first (higher-score, score 36)
chain covering 36 query characters fails the gate and latches
`coverage_too_low`; a second chain of score 35 covering 40 characters —
which passes the threshold — is then never passed to the callback: nothing
at all is emitted.  (Realizable because the coverage counts the union of
the seeds' query intervals while the score is the gap-penalized chain DP
score, so a chain can have more matched characters yet a lower score.) -/
theorem C5_counterexample_passing_chain_not_emitted :
    passes (38/100) 100 ⟨40, 1⟩ = true
      ∧ ((⟨40, 1⟩ : CChain), (35 : Int))
          ∈ chainSeq [⟨36, [⟨36, 0⟩]⟩, ⟨35, [⟨40, 1⟩]⟩]
      ∧ callSeedChainsEmit (38/100) 100 [⟨36, [⟨36, 0⟩]⟩, ⟨35, [⟨40, 1⟩]⟩] = [] := by
  have hfail : passes (38/100) 100 ⟨36, 0⟩ = false := by
    simp only [passes, decide_eq_false_iff_not, not_not]
    norm_num
  have hpass : passes (38/100) 100 ⟨40, 1⟩ = true := by
    simp only [passes, decide_eq_true_eq]
    norm_num
  have hseq : chainSeq [⟨36, [⟨36, 0⟩]⟩, ⟨35, [⟨40, 1⟩]⟩]
      = [(⟨36, 0⟩, 36), (⟨40, 1⟩, 35)] := by
    simp [chainSeq, dedupAdj]
  refine ⟨hpass, ?_, ?_⟩
  · rw [hseq]
    simp
  · rw [callSeedChainsEmit_eq, hseq, List.takeWhile_cons]
    simp [hfail]

/-- C5 (amended): a chain is passed to the callback iff it lies in the
longest prefix of the processed chain sequence (merged chains in descending
group-score order) all of whose members have exact-match fraction at least
`min_exact_match`; in particular every emitted chain passes the threshold
(the left-to-right half of the original claim), but a passing chain
processed after any failing chain is silently dropped. -/
theorem C5_emitted_is_longest_passing_run (minExact : ℚ) (qlen : Nat)
    (gs : List ChainGroup) :
    callSeedChainsEmit minExact qlen gs
        = (chainSeq gs).takeWhile (fun p => passes minExact qlen p.1)
      ∧ ∀ p ∈ callSeedChainsEmit minExact qlen gs, passes minExact qlen p.1 = true := by
  refine ⟨callSeedChainsEmit_eq minExact qlen gs, ?_⟩
  intro q hq
  rw [callSeedChainsEmit_eq] at hq
  have h2 := List.mem_takeWhile_imp hq
  exact h2

set_option maxHeartbeats 2000000 in
/-- C5, witness: on a single passing chain the emitted list is the passing
prefix of the processed sequence, and the emitted chain passes. -/
theorem C5_emitted_is_longest_passing_run_witness :
    ((⟨0, 2⟩ : CChain), (35 : Int)) ∈ callSeedChainsEmit 0 1 [⟨35, [⟨0, 2⟩]⟩]
      ∧ passes 0 1 (⟨0, 2⟩ : CChain) = true := by
  have hp : passes 0 1 ⟨0, 2⟩ = true := by
    simp only [passes, decide_eq_true_eq, Nat.cast_zero, zero_div, Nat.cast_one]
    exact lt_irrefl 0
  have hs : chainSeq [⟨35, [⟨0, 2⟩]⟩] = [(⟨0, 2⟩, 35)] := by
    simp [chainSeq, dedupAdj]
  have hmem : ((⟨0, 2⟩ : CChain), (35 : Int))
      ∈ callSeedChainsEmit 0 1 [⟨35, [⟨0, 2⟩]⟩] := by
    rw [callSeedChainsEmit_eq, hs]
    simp [List.takeWhile_cons, hp]
  exact ⟨hmem, (C5_emitted_is_longest_passing_run 0 1 [⟨35, [⟨0, 2⟩]⟩]).2 _ hmem⟩

/-! ### The path-index distance query -/

/-- C9: `get_dist` follows the documented branch structure: 0 on equal
ids; the recorded source-to-member distance when `b` lies in the
superbubble sourced at `a`; when `a` and `b` share a containing
superbubble, the termini-table difference `d2 - d1` only when `b` is that
superbubble's terminus and `a` can reach it, and the unreachable sentinel
otherwise; in the remaining cases the sentinel when `a` cannot reach its
terminus, and otherwise a walk along the chain of superbubbles from `b`'s
containing source, adding each recorded distance while the running total
stays below `max_dist`, returning total plus `b`'s in-bubble distance when
the walk reaches `a`'s terminus and the sentinel when it does not.  The
last two conjuncts state the loop's step and exit semantics. -/
theorem C9_get_dist_branch_semantics (px : PathIndexTables)
    (fuel p1 p2 maxDist t sb d : Nat) :
    (p1 = p2 → getDist px fuel p1 p2 maxDist = 0)
      ∧ (p1 ≠ p2 → sbStart px p1 = true → (getSuperbubbleAndDist px p2).1 = p1 →
          getDist px fuel p1 p2 maxDist = (getSuperbubbleAndDist px p2).2)
      ∧ (p1 ≠ p2 → ¬(sbStart px p1 = true ∧ (getSuperbubbleAndDist px p2).1 = p1) →
          (getSuperbubbleAndDist px p1).1 = (getSuperbubbleAndDist px p2).1 →
          ((getSuperbubbleTerminus px (getSuperbubbleAndDist px p1).1).1 = p2
              ∧ canReachTerminus px p1 = true →
            getDist px fuel p1 p2 maxDist
              = sub64 (getSuperbubbleAndDist px p2).2 (getSuperbubbleAndDist px p1).2)
          ∧ (¬((getSuperbubbleTerminus px (getSuperbubbleAndDist px p1).1).1 = p2
              ∧ canReachTerminus px p1 = true) →
            getDist px fuel p1 p2 maxDist = unreachableDist))
      ∧ (p1 ≠ p2 → ¬(sbStart px p1 = true ∧ (getSuperbubbleAndDist px p2).1 = p1) →
          (getSuperbubbleAndDist px p1).1 ≠ (getSuperbubbleAndDist px p2).1 →
          canReachTerminus px p1 = false →
          getDist px fuel p1 p2 maxDist = unreachableDist)
      ∧ (p1 ≠ p2 → ¬(sbStart px p1 = true ∧ (getSuperbubbleAndDist px p2).1 = p1) →
          (getSuperbubbleAndDist px p1).1 ≠ (getSuperbubbleAndDist px p2).1 →
          canReachTerminus px p1 = true →
          getDist px fuel p1 p2 maxDist
            = (if (chainWalk px
                    (getSuperbubbleTerminus px
                      (if sbStart px p1 then p1 else (getSuperbubbleAndDist px p1).1)).1
                    maxDist fuel (getSuperbubbleAndDist px p2).1
                    (if sbStart px p1 then (getSuperbubbleTerminus px p1).2
                     else
                      sub64
                        (getSuperbubbleTerminus px (getSuperbubbleAndDist px p1).1).2
                        (getSuperbubbleAndDist px p1).2)).1
                  = (getSuperbubbleTerminus px
                      (if sbStart px p1 then p1 else (getSuperbubbleAndDist px p1).1)).1
               then
                add64
                  (chainWalk px
                    (getSuperbubbleTerminus px
                      (if sbStart px p1 then p1 else (getSuperbubbleAndDist px p1).1)).1
                    maxDist fuel (getSuperbubbleAndDist px p2).1
                    (if sbStart px p1 then (getSuperbubbleTerminus px p1).2
                     else
                      sub64
                        (getSuperbubbleTerminus px (getSuperbubbleAndDist px p1).1).2
                        (getSuperbubbleAndDist px p1).2)).2
                  (getSuperbubbleAndDist px p2).2
               else unreachableDist))
      ∧ (sb ≠ 0 → sb ≠ t → d < maxDist →
          chainWalk px t maxDist (fuel + 1) sb d
            = chainWalk px t maxDist fuel (getSuperbubbleAndDist px sb).1
                (if (getSuperbubbleAndDist px sb).1 ≠ 0 then
                  add64 d (getSuperbubbleAndDist px sb).2
                 else d))
      ∧ (¬(sb ≠ 0 ∧ sb ≠ t ∧ d < maxDist) →
          chainWalk px t maxDist (fuel + 1) sb d = (sb, d)) := by
  refine ⟨?_, ?_, ?_, ?_, ?_, ?_, ?_⟩
  · intro h
    rw [getDist, if_pos h]
  · intro h1 hs hp
    rw [getDist, if_neg h1, if_pos ⟨hs, hp⟩]
  · intro h1 h2 h3
    constructor
    · intro h4
      rw [getDist, if_neg h1, if_neg h2, if_pos h3, if_pos h4]
    · intro h4
      rw [getDist, if_neg h1, if_neg h2, if_pos h3, if_neg h4]
  · intro h1 h2 h3 h4
    rw [getDist, if_neg h1, if_neg h2, if_neg h3, if_pos h4]
  · intro h1 h2 h3 h4
    rw [getDist, if_neg h1, if_neg h2, if_neg h3, if_neg (by simp [h4])]
    dsimp only
    cases hc : sbStart px p1 <;> simp [hc]
  · intro h1 h2 h3
    rw [chainWalk, if_pos ⟨h1, h2, h3⟩]
  · intro h
    rw [chainWalk, if_neg h]

/-- C9, witness: the theorem applied to the scenario-5 tables — equal ids,
source-to-terminus lookup (distance 11), two internal unitigs of the same
superbubble (unreachable), an unrelated unitig (unreachable), one chain
step and one loop exit. -/
theorem C9_get_dist_branch_semantics_witness :
    getDist pxEx 8 1 1 100 = 0
      ∧ getDist pxEx 8 1 4 100 = 11
      ∧ getDist pxEx 8 2 3 100 = unreachableDist
      ∧ getDist pxEx 8 1 5 100 = unreachableDist
      ∧ chainWalk pxEx 9 100 4 2 0 = chainWalk pxEx 9 100 3 1 1
      ∧ chainWalk pxEx 9 100 8 9 5 = (9, 5) := by
  refine ⟨?_, ?_, ?_, ?_, ?_, ?_⟩
  · exact (C9_get_dist_branch_semantics pxEx 8 1 1 100 0 0 0).1 rfl
  · exact ((C9_get_dist_branch_semantics pxEx 8 1 4 100 0 0 0).2.1
      (by decide) (by decide) (by decide)).trans (by decide)
  · exact ((C9_get_dist_branch_semantics pxEx 8 2 3 100 0 0 0).2.2.1
      (by decide) (by decide) (by decide)).2 (by decide)
  · exact ((C9_get_dist_branch_semantics pxEx 8 1 5 100 0 0 0).2.2.1
      (by decide) (by decide) (by decide)).2 (by decide)
  · exact ((C9_get_dist_branch_semantics pxEx 3 0 0 100 9 2 0).2.2.2.2.2.1
      (by decide) (by decide) (by decide)).trans (by decide)
  · exact (C9_get_dist_branch_semantics pxEx 7 0 0 100 9 9 5).2.2.2.2.2.2
      (by decide)

/-! ### Association-map and intern-table lemmas -/

theorem tryEmplace_of_none {m : List (Nat × Nat)} {k : Nat} (v : Nat)
    (h : mfind m k = none) : tryEmplace m k v = (m ++ [(k, v)], true) := by
  induction m with
  | nil => rfl
  | cons p m ih =>
    rw [mfind] at h
    split at h
    · cases h
    · rename_i hne
      rw [tryEmplace, if_neg hne, ih h]
      rfl

theorem tryEmplace_of_some {m : List (Nat × Nat)} {k w : Nat} (v : Nat)
    (h : mfind m k = some w) : tryEmplace m k v = (m, false) := by
  induction m with
  | nil => cases h
  | cons p m ih =>
    rw [mfind] at h
    split at h
    · rename_i he
      rw [tryEmplace, if_pos he]
    · rename_i hne
      rw [tryEmplace, if_neg hne, ih h]

theorem mfind_append (m1 m2 : List (Nat × Nat)) (k : Nat) :
    mfind (m1 ++ m2) k
      = match mfind m1 k with
        | some v => some v
        | none => mfind m2 k := by
  induction m1 with
  | nil => rfl
  | cons p m ih =>
    rw [List.cons_append, mfind, mfind]
    split
    · rfl
    · exact ih

theorem mfind_massign_self (m : List (Nat × Nat)) (k v : Nat) :
    mfind (massign m k v) k = some v := by
  induction m with
  | nil => simp [massign, mfind]
  | cons p m ih =>
    rw [massign]
    split
    · rw [mfind, if_pos rfl]
    · rename_i hne
      rw [mfind, if_neg hne]
      exact ih

theorem mfind_massign_other (m : List (Nat × Nat)) (k v k' : Nat) (h : k' ≠ k) :
    mfind (massign m k v) k' = mfind m k' := by
  induction m with
  | nil =>
    rw [massign, mfind, mfind]
    rw [if_neg (fun h2 => h (Eq.symm h2))]
    rfl
  | cons p m ih =>
    rw [massign]
    split
    · rename_i he
      simp only [mfind, he]
      rw [if_neg (fun h2 => h (Eq.symm h2)), if_neg (fun h2 => h (Eq.symm h2))]
    · rename_i hne
      rw [mfind, mfind]
      by_cases hpk : p.1 = k'
      · rw [if_pos hpk, if_pos hpk]
      · rw [if_neg hpk, if_neg hpk, ih]

theorem massign_self_eq : ∀ (m : List (Nat × Nat)) (k v : Nat),
    mfind m k = some v → massign m k v = m := by
  intro m k v
  induction m with
  | nil => intro h; cases h
  | cons p m ih =>
    intro h
    obtain ⟨a, b⟩ := p
    rw [mfind] at h
    split at h
    · rename_i he
      injection h with h2
      rw [massign, if_pos he]
      dsimp only at he h2
      rw [he, h2]
    · rename_i hne
      rw [massign, if_neg hne, ih h]

theorem mfind_tryEmplace_self_of_none {m : List (Nat × Nat)} {k : Nat} (v : Nat)
    (h : mfind m k = none) : mfind (tryEmplace m k v).1 k = some v := by
  rw [tryEmplace_of_none v h]
  simp [mfind_append, h, mfind]

theorem mfind_tryEmplace_preserve {m : List (Nat × Nat)} {k k' w : Nat} (v : Nat)
    (h : mfind m k' = some w) : mfind (tryEmplace m k v).1 k' = some w := by
  cases hk : mfind m k with
  | some u =>
    rw [tryEmplace_of_some v hk]
    exact h
  | none =>
    rw [tryEmplace_of_none v hk]
    simp [mfind_append, h]

theorem mfind_tryEmplace_other {m : List (Nat × Nat)} {k k' : Nat} (v : Nat)
    (h : k' ≠ k) : mfind (tryEmplace m k v).1 k' = mfind m k' := by
  cases hk : mfind m k with
  | some u => rw [tryEmplace_of_some v hk]
  | none =>
    rw [tryEmplace_of_none v hk]
    cases h2 : mfind m k' with
    | some w => simp [mfind_append, h2]
    | none => simp [mfind_append, h2, mfind, Ne.symm h]

theorem findIdxO_lt_length {α : Type} (p : α → Bool) :
    ∀ (l : List α) (i : Nat), findIdxO p l = some i → i < l.length := by
  intro l
  induction l with
  | nil => intro i h; cases h
  | cons a l ih =>
    intro i h
    rw [findIdxO] at h
    split at h
    · injection h with h2
      simp [← h2]
    · cases hl : findIdxO p l with
      | none => rw [hl] at h; cases h
      | some j =>
        rw [hl] at h
        injection h with h2
        have h3 := ih j hl
        simp only [List.length_cons]
        omega

theorem findIdxO_append_none {α : Type} (p : α → Bool) :
    ∀ (l : List α) (a : α), findIdxO p l = none → p a = true →
      findIdxO p (l ++ [a]) = some l.length := by
  intro l
  induction l with
  | nil =>
    intro a _ hp
    simp [findIdxO, hp]
  | cons x l ih =>
    intro a h hp
    rw [findIdxO] at h
    split at h
    · cases h
    · rename_i hx
      cases hl : findIdxO p l with
      | some j => rw [hl] at h; cases h
      | none =>
        rw [List.cons_append, findIdxO, if_neg hx, ih a hl hp]
        rfl

theorem cacheColumnSet_lt (sets : List (List Nat)) (s : List Nat) :
    (cacheColumnSet sets s).2 < (cacheColumnSet sets s).1.length := by
  cases hf : findIdxO (fun t => decide (t = s)) sets with
  | some i =>
    rw [cacheColumnSet, hf]
    exact findIdxO_lt_length _ sets i hf
  | none =>
    rw [cacheColumnSet, hf]
    simp

theorem cacheColumnSet_len (sets : List (List Nat)) (s : List Nat) :
    sets.length ≤ (cacheColumnSet sets s).1.length
      ∧ (cacheColumnSet sets s).1.length ≤ sets.length + 1 := by
  cases hf : findIdxO (fun t => decide (t = s)) sets with
  | some i =>
    rw [cacheColumnSet, hf]
    simp
  | none =>
    rw [cacheColumnSet, hf]
    simp

theorem cacheColumnSet_getD0 (sets : List (List Nat)) (s : List Nat)
    (h1 : 1 ≤ sets.length) :
    (cacheColumnSet sets s).1.getD 0 [] = sets.getD 0 [] := by
  cases hf : findIdxO (fun t => decide (t = s)) sets with
  | some i => rw [cacheColumnSet, hf]
  | none =>
    rw [cacheColumnSet, hf]
    exact List.getD_append _ _ _ _ (by omega)

theorem cacheColumnSet_idem (sets : List (List Nat)) (s : List Nat) :
    cacheColumnSet (cacheColumnSet sets s).1 s = cacheColumnSet sets s := by
  cases hf : findIdxO (fun t => decide (t = s)) sets with
  | some i =>
    have h1 : cacheColumnSet sets s = (sets, i) := by simp [cacheColumnSet, hf]
    rw [h1]
    simp [cacheColumnSet, hf]
  | none =>
    have h1 : cacheColumnSet sets s = (sets ++ [s], sets.length) := by
      simp [cacheColumnSet, hf]
    have hidx : findIdxO (fun t => decide (t = s)) (sets ++ [s])
        = some sets.length :=
      findIdxO_append_none _ sets s hf (by simp)
    rw [h1]
    simp [cacheColumnSet, hidx]

/-! ### Invariant preservation for the CANONICAL reconciliation -/

theorem mfind_tryEmplace_cases {m : List (Nat × Nat)} {k v x w : Nat}
    (h : mfind (tryEmplace m k v).1 x = some w) :
    mfind m x = some w ∨ (x = k ∧ w = v ∧ mfind m k = none) := by
  cases hk : mfind m k with
  | some u =>
    rw [tryEmplace_of_some v hk] at h
    exact Or.inl h
  | none =>
    by_cases hx : x = k
    · subst hx
      rw [mfind_tryEmplace_self_of_none v hk] at h
      injection h with h2
      exact Or.inr ⟨rfl, h2.symm, rfl⟩
    · rw [mfind_tryEmplace_other v hx] at h
      exact Or.inl h

theorem mfind_tryEmplace_zero_self {m : List (Nat × Nat)} {k : Nat}
    (h : ∀ w, mfind m k = some w → w = 0) :
    mfind (tryEmplace m k 0).1 k = some 0 := by
  cases hk : mfind m k with
  | some u =>
    rw [tryEmplace_of_some 0 hk]
    rw [hk, h u hk]
  | none => exact mfind_tryEmplace_self_of_none 0 hk

/-- The `npos`-base branch (annotation_buffer.cpp lines 130-137) keeps the
invariant: the path node gets id 0 when absent. -/
theorem CInv_npos (baseOf : Nat → Nat) (isDummy : Nat → Bool) (st : ABuf)
    (k n : Nat) (hinv : CInv baseOf isDummy st (k + 1)) (hb0 : baseOf n = 0) :
    CInv baseOf isDummy
      { st with nodeToCols := (tryEmplace st.nodeToCols n 0).1 } k := by
  obtain ⟨qn, qr, sets1, sets0, budget, vlt, sync, dz, nz⟩ := hinv
  refine ⟨qn, qr, sets1, sets0, by dsimp only; omega, ?_, ?_, ?_, ?_⟩
  · intro x v h
    rcases mfind_tryEmplace_cases h with h2 | ⟨rfl, rfl, h4⟩
    · exact vlt x v h2
    · dsimp only
      omega
  · intro x v h hx
    rcases mfind_tryEmplace_cases h with h2 | ⟨rfl, rfl, h4⟩
    · exact mfind_tryEmplace_preserve 0 (sync x v h2 hx)
    · exact absurd hb0 hx
  · intro x v h hx hd
    rcases mfind_tryEmplace_cases h with h2 | ⟨rfl, rfl, h4⟩
    · exact dz x v h2 hx hd
    · rfl
  · intro x v h hx
    rcases mfind_tryEmplace_cases h with h2 | ⟨rfl, rfl, h4⟩
    · exact nz x v h2 hx
    · rfl

/-- The BOSS-dummy branch (annotation_buffer.cpp lines 139-151) keeps the
invariant: the base node, and in a CANONICAL graph the path node too, get
id 0. -/
theorem CInv_dummy (baseOf : Nat → Nat) (isDummy : Nat → Bool) (st : ABuf)
    (k n : Nat) (hidem : ∀ x, baseOf (baseOf x) = baseOf x)
    (hinv : CInv baseOf isDummy st (k + 1)) (hb0 : baseOf n ≠ 0)
    (hd : isDummy (baseOf n) = true) :
    CInv baseOf isDummy
      { st with nodeToCols :=
          if GMode.canonical ≠ GMode.basic ∧ baseOf n ≠ n then
            (tryEmplace (tryEmplace st.nodeToCols (baseOf n) 0).1 n 0).1
          else (tryEmplace st.nodeToCols (baseOf n) 0).1 } k := by
  obtain ⟨qn, qr, sets1, sets0, budget, vlt, sync, dz, nz⟩ := hinv
  have hzb : ∀ w, mfind st.nodeToCols (baseOf n) = some w → w = 0 := by
    intro w hw
    exact dz (baseOf n) w hw (by rw [hidem]; exact hb0) (by rw [hidem]; exact hd)
  have hb_self : mfind (tryEmplace st.nodeToCols (baseOf n) 0).1 (baseOf n)
      = some 0 := mfind_tryEmplace_zero_self hzb
  by_cases hne : baseOf n ≠ n
  · rw [if_pos ⟨by decide, hne⟩]
    refine ⟨qn, qr, sets1, sets0, by dsimp only; omega, ?_, ?_, ?_, ?_⟩
    · intro x v h
      rcases mfind_tryEmplace_cases h with h2 | ⟨rfl, rfl, h4⟩
      · rcases mfind_tryEmplace_cases h2 with h3 | ⟨rfl, rfl, h5⟩
        · exact vlt x v h3
        · dsimp only
          omega
      · dsimp only
        omega
    · intro x v h hx
      rcases mfind_tryEmplace_cases h with h2 | ⟨rfl, rfl, h4⟩
      · rcases mfind_tryEmplace_cases h2 with h3 | ⟨rfl, rfl, h5⟩
        · exact mfind_tryEmplace_preserve 0
            (mfind_tryEmplace_preserve 0 (sync x v h3 hx))
        · rw [hidem]
          exact mfind_tryEmplace_preserve 0 hb_self
      · exact mfind_tryEmplace_preserve 0 hb_self
    · intro x v h hx hd2
      rcases mfind_tryEmplace_cases h with h2 | ⟨rfl, rfl, h4⟩
      · rcases mfind_tryEmplace_cases h2 with h3 | ⟨rfl, rfl, h5⟩
        · exact dz x v h3 hx hd2
        · rfl
      · rfl
    · intro x v h hx
      rcases mfind_tryEmplace_cases h with h2 | ⟨rfl, rfl, h4⟩
      · rcases mfind_tryEmplace_cases h2 with h3 | ⟨rfl, rfl, h5⟩
        · exact nz x v h3 hx
        · rfl
      · rfl
  · rw [if_neg (fun hc => hne hc.2)]
    push_neg at hne
    refine ⟨qn, qr, sets1, sets0, by dsimp only; omega, ?_, ?_, ?_, ?_⟩
    · intro x v h
      rcases mfind_tryEmplace_cases h with h2 | ⟨rfl, rfl, h4⟩
      · exact vlt x v h2
      · dsimp only
        omega
    · intro x v h hx
      rcases mfind_tryEmplace_cases h with h2 | ⟨rfl, rfl, h4⟩
      · exact mfind_tryEmplace_preserve 0 (sync x v h2 hx)
      · rw [hidem]
        exact hb_self
    · intro x v h hx hd2
      rcases mfind_tryEmplace_cases h with h2 | ⟨rfl, rfl, h4⟩
      · exact dz x v h2 hx hd2
      · rfl
    · intro x v h hx
      rcases mfind_tryEmplace_cases h with h2 | ⟨rfl, rfl, h4⟩
      · exact nz x v h2 hx
      · rfl

theorem CInv_mono {baseOf : Nat → Nat} {isDummy : Nat → Bool} {st : ABuf}
    {k : Nat} (h : CInv baseOf isDummy st (k + 1)) :
    CInv baseOf isDummy st k := by
  obtain ⟨qn, qr, s1, s0, bu, vlt, sy, dz, nz⟩ := h
  exact ⟨qn, qr, s1, s0, by omega, vlt, sy, dz, nz⟩

/-- Both orientations already recorded (annotation_buffer.cpp lines
186-192): by the invariant their ids agree, so taking the minimum and
writing it back is a no-op. -/
theorem CInv_case_ss (baseOf : Nat → Nat) (isDummy : Nat → Bool) (st : ABuf)
    (k n va vb : Nat) (hinv : CInv baseOf isDummy st (k + 1))
    (hb0 : baseOf n ≠ 0)
    (han : mfind st.nodeToCols n = some va)
    (hab : mfind st.nodeToCols (baseOf n) = some vb) :
    CInv baseOf isDummy
      (if min va vb ≠ nannot then
        { st with nodeToCols :=
            massign (massign st.nodeToCols n (min va vb)) (baseOf n) (min va vb) }
       else st) k := by
  have hveq : vb = va := by
    have h2 := hinv.sync n va han hb0
    rw [hab] at h2
    injection h2
  subst hveq
  rw [Nat.min_self]
  have hmm : massign (massign st.nodeToCols n vb) (baseOf n) vb
      = st.nodeToCols := by
    rw [massign_self_eq st.nodeToCols n vb han]
    exact massign_self_eq st.nodeToCols (baseOf n) vb hab
  rw [hmm]
  have hst : { st with nodeToCols := st.nodeToCols } = st := rfl
  rw [hst, ite_self]
  exact CInv_mono hinv

/-- Only the base orientation recorded (annotation_buffer.cpp lines
178-183): the path node inherits the base's id; by the invariant that id
is never `nannot`, so nothing is queued. -/
theorem CInv_case_ns (baseOf : Nat → Nat) (isDummy : Nat → Bool) (st : ABuf)
    (k n vb : Nat) (hinv : CInv baseOf isDummy st (k + 1))
    (hb0 : baseOf n ≠ 0) (hnd : isDummy (baseOf n) = false)
    (han : mfind st.nodeToCols n = none)
    (hab : mfind st.nodeToCols (baseOf n) = some vb) :
    vb ≠ nannot
      ∧ CInv baseOf isDummy
        { st with
          nodeToCols := (tryEmplace st.nodeToCols n vb).1,
          queuedNodes :=
            if vb = nannot then st.queuedNodes ++ [n] else st.queuedNodes,
          queuedRows :=
            if vb = nannot then st.queuedRows ++ [baseOf n] else st.queuedRows } k := by
  obtain ⟨qn, qr, sets1, sets0, budget, vlt, sync, dz, nz⟩ := hinv
  have hvb : vb ≠ nannot := by
    have h2 := vlt (baseOf n) vb hab
    omega
  refine ⟨hvb, ?_, ?_, sets1, sets0, by dsimp only; omega, ?_, ?_, ?_, ?_⟩
  · dsimp only
    rw [if_neg hvb]
    exact qn
  · dsimp only
    rw [if_neg hvb]
    exact qr
  · intro x v h
    rcases mfind_tryEmplace_cases h with h2 | ⟨rfl, rfl, h4⟩
    · exact vlt x v h2
    · dsimp only
      exact vlt (baseOf x) v hab
  · intro x v h hx
    rcases mfind_tryEmplace_cases h with h2 | ⟨rfl, rfl, h4⟩
    · exact mfind_tryEmplace_preserve vb (sync x v h2 hx)
    · exact mfind_tryEmplace_preserve v hab
  · intro x v h hx hd2
    rcases mfind_tryEmplace_cases h with h2 | ⟨rfl, rfl, h4⟩
    · exact dz x v h2 hx hd2
    · rw [hnd] at hd2
      cases hd2
  · intro x v h hx
    rcases mfind_tryEmplace_cases h with h2 | ⟨rfl, rfl, h4⟩
    · exact nz x v h2 hx
    · exact absurd hx hb0

/-- A flush of an empty queue only clears the (already empty) queues. -/
theorem flushBatch_empty (mode : GMode) (annot : Nat → List Nat) (st : ABuf)
    (hq : st.queuedNodes = []) :
    flushBatch mode annot st = { st with queuedNodes := [], queuedRows := [] } := by
  rw [flushBatch, hq]
  rfl

/-- A flush of the single pair `(n, n)` interns the row's labels and
assigns the id to `n`. -/
theorem flushBatch_single (annot : Nat → List Nat) (m : List (Nat × Nat))
    (cs : List (List Nat)) (n : Nat) :
    flushBatch GMode.canonical annot ⟨m, cs, [n], [n]⟩
      = ⟨massign m n (cacheColumnSet cs (sortNats (annot n))).2,
         (cacheColumnSet cs (sortNats (annot n))).1, [], []⟩ := by
  rw [flushBatch]
  dsimp only
  rw [show List.zip [n] [n] = [(n, n)] from rfl, List.foldl_cons, List.foldl_nil]
  dsimp only [pushNodeLabels]
  rw [if_neg (fun h => h rfl)]

/-- A flush of the two pairs `(n, b), (b, b)` queued by the
neither-orientation-known case: the first push assigns the interned id to
`n` and leaves `b` untouched (its `try_emplace` finds `b` present); the
second, deduplicated by the intern table, assigns the same id to `b`. -/
theorem flushBatch_pair (annot : Nat → List Nat) (m : List (Nat × Nat))
    (cs : List (List Nat)) (n b : Nat) (hnb : n ≠ b) :
    flushBatch GMode.canonical annot ⟨m, cs, [n, b], [b, b]⟩
      = ⟨massign
           (tryEmplace
             (massign m n (cacheColumnSet cs (sortNats (annot b))).2)
             b (cacheColumnSet cs (sortNats (annot b))).2).1
           b (cacheColumnSet cs (sortNats (annot b))).2,
         (cacheColumnSet cs (sortNats (annot b))).1, [], []⟩ := by
  rw [flushBatch]
  dsimp only
  rw [show List.zip [n, b] [b, b] = [(n, b), (b, b)] from rfl,
    List.foldl_cons, List.foldl_cons, List.foldl_nil]
  dsimp only [pushNodeLabels]
  rw [if_pos (fun h => hnb (Eq.symm h))]
  rw [if_neg (fun h => h rfl)]
  rw [cacheColumnSet_idem]

/-- Neither orientation known, distinct orientations (annotation_buffer.cpp
lines 168-177 followed by the immediate flush): both orientations end up
with the interned id of the base row's label set. -/
theorem CInv_case_nn (baseOf : Nat → Nat) (isDummy : Nat → Bool)
    (annot : Nat → List Nat) (st : ABuf) (k n : Nat)
    (hidem : ∀ x, baseOf (baseOf x) = baseOf x)
    (hinv : CInv baseOf isDummy st (k + 1)) (hb0 : baseOf n ≠ 0)
    (hnd : isDummy (baseOf n) = false)
    (han : mfind st.nodeToCols n = none)
    (hab : mfind st.nodeToCols (baseOf n) = none)
    (hnb : n ≠ baseOf n) :
    CInv baseOf isDummy
      ⟨massign
         (tryEmplace
           (massign
             (tryEmplace (tryEmplace st.nodeToCols n nannot).1 (baseOf n) nannot).1
             n (cacheColumnSet st.columnSets (sortNats (annot (baseOf n)))).2)
           (baseOf n) (cacheColumnSet st.columnSets (sortNats (annot (baseOf n)))).2).1
         (baseOf n) (cacheColumnSet st.columnSets (sortNats (annot (baseOf n)))).2,
       (cacheColumnSet st.columnSets (sortNats (annot (baseOf n)))).1, [], []⟩ k := by
  obtain ⟨qn, qr, sets1, sets0, budget, vlt, sync, dz, nz⟩ := hinv
  have hlen := cacheColumnSet_len st.columnSets (sortNats (annot (baseOf n)))
  have hilt := cacheColumnSet_lt st.columnSets (sortNats (annot (baseOf n)))
  have hm1n : mfind (tryEmplace (tryEmplace st.nodeToCols n nannot).1
      (baseOf n) nannot).1 n = some nannot :=
    mfind_tryEmplace_preserve nannot (mfind_tryEmplace_self_of_none nannot han)
  have hm0b : mfind (tryEmplace st.nodeToCols n nannot).1 (baseOf n) = none := by
    rw [mfind_tryEmplace_other nannot (fun h => hnb (Eq.symm h))]
    exact hab
  have hm1b : mfind (tryEmplace (tryEmplace st.nodeToCols n nannot).1
      (baseOf n) nannot).1 (baseOf n) = some nannot :=
    mfind_tryEmplace_self_of_none nannot hm0b
  have hm1x : ∀ x, x ≠ n → x ≠ baseOf n →
      mfind (tryEmplace (tryEmplace st.nodeToCols n nannot).1
        (baseOf n) nannot).1 x = mfind st.nodeToCols x := by
    intro x hx1 hx2
    rw [mfind_tryEmplace_other nannot hx2, mfind_tryEmplace_other nannot hx1]
  have h3 : tryEmplace
      (massign
        (tryEmplace (tryEmplace st.nodeToCols n nannot).1 (baseOf n) nannot).1
        n (cacheColumnSet st.columnSets (sortNats (annot (baseOf n)))).2)
      (baseOf n) (cacheColumnSet st.columnSets (sortNats (annot (baseOf n)))).2
      = (massign
          (tryEmplace (tryEmplace st.nodeToCols n nannot).1 (baseOf n) nannot).1
          n (cacheColumnSet st.columnSets (sortNats (annot (baseOf n)))).2,
         false) := by
    apply tryEmplace_of_some
    rw [mfind_massign_other _ _ _ _ (fun h => hnb (Eq.symm h))]
    exact hm1b
  have hFn : mfind (massign
      (tryEmplace
        (massign
          (tryEmplace (tryEmplace st.nodeToCols n nannot).1 (baseOf n) nannot).1
          n (cacheColumnSet st.columnSets (sortNats (annot (baseOf n)))).2)
        (baseOf n) (cacheColumnSet st.columnSets (sortNats (annot (baseOf n)))).2).1
      (baseOf n) (cacheColumnSet st.columnSets (sortNats (annot (baseOf n)))).2)
      n = some (cacheColumnSet st.columnSets (sortNats (annot (baseOf n)))).2 := by
    rw [mfind_massign_other _ _ _ _ hnb, h3]
    exact mfind_massign_self _ _ _
  have hFb : mfind (massign
      (tryEmplace
        (massign
          (tryEmplace (tryEmplace st.nodeToCols n nannot).1 (baseOf n) nannot).1
          n (cacheColumnSet st.columnSets (sortNats (annot (baseOf n)))).2)
        (baseOf n) (cacheColumnSet st.columnSets (sortNats (annot (baseOf n)))).2).1
      (baseOf n) (cacheColumnSet st.columnSets (sortNats (annot (baseOf n)))).2)
      (baseOf n) = some (cacheColumnSet st.columnSets (sortNats (annot (baseOf n)))).2 :=
    mfind_massign_self _ _ _
  have hFx : ∀ x, x ≠ n → x ≠ baseOf n →
      mfind (massign
        (tryEmplace
          (massign
            (tryEmplace (tryEmplace st.nodeToCols n nannot).1 (baseOf n) nannot).1
            n (cacheColumnSet st.columnSets (sortNats (annot (baseOf n)))).2)
          (baseOf n) (cacheColumnSet st.columnSets (sortNats (annot (baseOf n)))).2).1
        (baseOf n) (cacheColumnSet st.columnSets (sortNats (annot (baseOf n)))).2)
        x = mfind st.nodeToCols x := by
    intro x hx1 hx2
    rw [mfind_massign_other _ _ _ _ hx2, h3, mfind_massign_other _ _ _ _ hx1]
    exact hm1x x hx1 hx2
  refine ⟨rfl, rfl, by dsimp only; omega, ?_, by dsimp only; omega, ?_, ?_, ?_, ?_⟩
  · dsimp only
    rw [cacheColumnSet_getD0 _ _ sets1]
    exact sets0
  · intro x v h
    dsimp only at h ⊢
    by_cases hx1 : x = n
    · subst hx1
      rw [hFn] at h
      injection h with h2
      omega
    · by_cases hx2 : x = baseOf n
      · subst hx2
        rw [hFb] at h
        injection h with h2
        omega
      · rw [hFx x hx1 hx2] at h
        have := vlt x v h
        omega
  · intro x v h hx
    dsimp only at h ⊢
    by_cases hx1 : x = n
    · subst hx1
      rw [hFn] at h
      rw [← h]
      exact hFb
    · by_cases hx2 : x = baseOf n
      · subst hx2
        rw [hidem]
        rw [hFb] at h
        rw [← h]
        exact hFb
      · rw [hFx x hx1 hx2] at h
        have h5 := sync x v h hx
        have hbx1 : baseOf x ≠ n := by
          intro he
          have h6 := hidem x
          rw [he] at h6
          exact hnb (Eq.symm h6)
        have hbx2 : baseOf x ≠ baseOf n := by
          intro he
          rw [he, hab] at h5
          cases h5
        rw [hFx (baseOf x) hbx1 hbx2]
        exact h5
  · intro x v h hx hd2
    dsimp only at h
    by_cases hx1 : x = n
    · subst hx1
      rw [hnd] at hd2
      cases hd2
    · by_cases hx2 : x = baseOf n
      · subst hx2
        rw [hidem] at hd2
        rw [hnd] at hd2
        cases hd2
      · rw [hFx x hx1 hx2] at h
        exact dz x v h hx hd2
  · intro x v h hx
    dsimp only at h
    by_cases hx1 : x = n
    · subst hx1
      exact absurd hx hb0
    · by_cases hx2 : x = baseOf n
      · subst hx2
        rw [hidem] at hx
        exact absurd hx hb0
      · rw [hFx x hx1 hx2] at h
        exact nz x v h hx

/-- Neither orientation known and the node is its own base: the single
queued pair assigns it the interned id. -/
theorem CInv_case_nn_self (baseOf : Nat → Nat) (isDummy : Nat → Bool)
    (annot : Nat → List Nat) (st : ABuf) (k n : Nat)
    (hinv : CInv baseOf isDummy st (k + 1)) (hb0 : baseOf n ≠ 0)
    (hnd : isDummy (baseOf n) = false)
    (han : mfind st.nodeToCols n = none) (hself : baseOf n = n) :
    CInv baseOf isDummy
      ⟨massign (tryEmplace st.nodeToCols n nannot).1 n
         (cacheColumnSet st.columnSets (sortNats (annot n))).2,
       (cacheColumnSet st.columnSets (sortNats (annot n))).1, [], []⟩ k := by
  obtain ⟨qn, qr, sets1, sets0, budget, vlt, sync, dz, nz⟩ := hinv
  have hlen := cacheColumnSet_len st.columnSets (sortNats (annot n))
  have hilt := cacheColumnSet_lt st.columnSets (sortNats (annot n))
  have hFn : mfind (massign (tryEmplace st.nodeToCols n nannot).1 n
      (cacheColumnSet st.columnSets (sortNats (annot n))).2) n
      = some (cacheColumnSet st.columnSets (sortNats (annot n))).2 :=
    mfind_massign_self _ _ _
  have hFx : ∀ x, x ≠ n →
      mfind (massign (tryEmplace st.nodeToCols n nannot).1 n
        (cacheColumnSet st.columnSets (sortNats (annot n))).2) x
        = mfind st.nodeToCols x := by
    intro x hx1
    rw [mfind_massign_other _ _ _ _ hx1, mfind_tryEmplace_other nannot hx1]
  refine ⟨rfl, rfl, by dsimp only; omega, ?_, by dsimp only; omega, ?_, ?_, ?_, ?_⟩
  · dsimp only
    rw [cacheColumnSet_getD0 _ _ sets1]
    exact sets0
  · intro x v h
    dsimp only at h ⊢
    by_cases hx1 : x = n
    · subst hx1
      rw [hFn] at h
      injection h with h2
      omega
    · rw [hFx x hx1] at h
      have := vlt x v h
      omega
  · intro x v h hx
    dsimp only at h ⊢
    by_cases hx1 : x = n
    · subst hx1
      rw [hself]
      exact h
    · rw [hFx x hx1] at h
      have h5 := sync x v h hx
      have hbx1 : baseOf x ≠ n := by
        intro he
        rw [he, han] at h5
        cases h5
      rw [hFx (baseOf x) hbx1]
      exact h5
  · intro x v h hx hd2
    dsimp only at h
    by_cases hx1 : x = n
    · subst hx1
      rw [hnd] at hd2
      cases hd2
    · rw [hFx x hx1] at h
      exact dz x v h hx hd2
  · intro x v h hx
    dsimp only at h
    by_cases hx1 : x = n
    · subst hx1
      exact absurd hx hb0
    · rw [hFx x hx1] at h
      exact nz x v h hx

/-- One full iteration of the per-position loop (with an immediate flush
when anything was queued) preserves the CANONICAL-mode invariant. -/
theorem stepCanon_preserves (baseOf : Nat → Nat) (isDummy : Nat → Bool)
    (annot : Nat → List Nat) (hidem : ∀ x, baseOf (baseOf x) = baseOf x)
    (st : ABuf) (k n : Nat) (hinv : CInv baseOf isDummy st (k + 1)) :
    CInv baseOf isDummy (stepCanon baseOf isDummy annot st n) k := by
  by_cases hb0 : baseOf n = 0
  · have hrb : reachesBatchCheck GMode.canonical baseOf isDummy n = false := by
      simp [reachesBatchCheck, hb0]
    have hpn : processNode GMode.canonical baseOf isDummy st n
        = { st with nodeToCols := (tryEmplace st.nodeToCols n 0).1 } := by
      rw [processNode]
      rw [if_pos hb0]
      decide
    rw [stepCanon, if_neg (by simp [hrb]), hpn]
    exact CInv_npos baseOf isDummy st k n hinv hb0
  · by_cases hd : isDummy (baseOf n) = true
    · have hrb : reachesBatchCheck GMode.canonical baseOf isDummy n = false := by
        simp [reachesBatchCheck, hb0, hd]
      have hpn : processNode GMode.canonical baseOf isDummy st n
          = { st with nodeToCols :=
              if GMode.canonical ≠ GMode.basic ∧ baseOf n ≠ n then
                (tryEmplace (tryEmplace st.nodeToCols (baseOf n) 0).1 n 0).1
              else (tryEmplace st.nodeToCols (baseOf n) 0).1 } := by
        rw [processNode]
        rw [if_neg hb0, if_pos hd]
        decide
      rw [stepCanon, if_neg (by simp [hrb]), hpn]
      exact CInv_dummy baseOf isDummy st k n hidem hinv hb0 hd
    · have hd' : isDummy (baseOf n) = false := by
        cases h : isDummy (baseOf n)
        · rfl
        · exact absurd h hd
      have hrb : reachesBatchCheck GMode.canonical baseOf isDummy n = true := by
        simp [reachesBatchCheck, hb0, hd']
      cases han : mfind st.nodeToCols n with
      | some va =>
        cases hab : mfind st.nodeToCols (baseOf n) with
        | some vb =>
          have hpn : processNode GMode.canonical baseOf isDummy st n
              = (if min va vb ≠ nannot then
                  { st with nodeToCols := massign (massign st.nodeToCols n (min va vb)) (baseOf n) (min va vb) }
                 else st) := by
            rw [processNode]
            rw [if_neg hb0, if_neg (by simp [hd']), if_neg (by simp), han, hab]
            decide
          have hql : (processNode GMode.canonical baseOf isDummy st n).queuedRows
              = [] := by
            rw [hpn]
            split
            · exact hinv.qr
            · exact hinv.qr
          rw [stepCanon,
            if_neg (fun hc => by rw [hql] at hc; exact absurd hc.2 (by simp)), hpn]
          exact CInv_case_ss baseOf isDummy st k n va vb hinv hb0 han hab
        | none =>
          have h5 := hinv.sync n va han hb0
          rw [hab] at h5
          cases h5
      | none =>
        cases hab : mfind st.nodeToCols (baseOf n) with
        | some vb =>
          obtain ⟨hvb, hinv2⟩ :=
            CInv_case_ns baseOf isDummy st k n vb hinv hb0 hd' han hab
          have hpn : processNode GMode.canonical baseOf isDummy st n
              = { st with
                  nodeToCols := (tryEmplace st.nodeToCols n vb).1,
                  queuedNodes :=
                    if vb = nannot then st.queuedNodes ++ [n] else st.queuedNodes,
                  queuedRows :=
                    if vb = nannot then st.queuedRows ++ [baseOf n]
                    else st.queuedRows } := by
            rw [processNode]
            rw [if_neg hb0, if_neg (by simp [hd']), if_neg (by simp), han, hab]
            decide
          have hql : (processNode GMode.canonical baseOf isDummy st n).queuedRows
              = [] := by
            rw [hpn]
            dsimp only
            rw [if_neg hvb]
            exact hinv.qr
          rw [stepCanon,
            if_neg (fun hc => by rw [hql] at hc; exact absurd hc.2 (by simp)), hpn]
          exact hinv2
        | none =>
          by_cases hnb : n = baseOf n
          · have hpn : processNode GMode.canonical baseOf isDummy st n
                = { st with
                    nodeToCols := (tryEmplace st.nodeToCols n nannot).1,
                    queuedNodes := st.queuedNodes ++ [n],
                    queuedRows := st.queuedRows ++ [baseOf n] } := by
              rw [processNode]
              rw [if_neg hb0, if_neg (by simp [hd']), if_neg (by simp), han, hab]
              rw [if_neg (fun h => h hnb)]
              decide
            have hst : { st with
                nodeToCols := (tryEmplace st.nodeToCols n nannot).1,
                queuedNodes := st.queuedNodes ++ [n],
                queuedRows := st.queuedRows ++ [baseOf n] }
                = (⟨(tryEmplace st.nodeToCols n nannot).1, st.columnSets, [n], [n]⟩ : ABuf) := by
              rw [hinv.qn, hinv.qr, ← hnb]
              rfl
            have hql : (processNode GMode.canonical baseOf isDummy st n).queuedRows
                = [n] := by
              rw [hpn, hst]
            rw [stepCanon, if_pos ⟨hrb, by rw [hql]; simp⟩, hpn, hst,
              flushBatch_single]
            have hself : baseOf n = n := Eq.symm hnb
            exact CInv_case_nn_self baseOf isDummy annot st k n hinv hb0 hd' han
              hself
          · have hpn : processNode GMode.canonical baseOf isDummy st n
                = { st with
                    nodeToCols := (tryEmplace (tryEmplace st.nodeToCols n nannot).1 (baseOf n) nannot).1,
                    queuedNodes := st.queuedNodes ++ [n, baseOf n],
                    queuedRows := st.queuedRows ++ [baseOf n, baseOf n] } := by
              rw [processNode]
              rw [if_neg hb0, if_neg (by simp [hd']), if_neg (by simp), han, hab]
              rw [if_pos hnb]
              decide
            have hst : { st with
                nodeToCols := (tryEmplace (tryEmplace st.nodeToCols n nannot).1 (baseOf n) nannot).1,
                queuedNodes := st.queuedNodes ++ [n, baseOf n],
                queuedRows := st.queuedRows ++ [baseOf n, baseOf n] }
                = (⟨(tryEmplace (tryEmplace st.nodeToCols n nannot).1 (baseOf n) nannot).1, st.columnSets, [n, baseOf n], [baseOf n, baseOf n]⟩ : ABuf) := by
              rw [hinv.qn, hinv.qr]
              rfl
            have hql : (processNode GMode.canonical baseOf isDummy st n).queuedRows
                = [baseOf n, baseOf n] := by
              rw [hpn, hst]
            rw [stepCanon, if_pos ⟨hrb, by rw [hql]; simp⟩, hpn, hst,
              flushBatch_pair annot _ _ n (baseOf n) hnb]
            exact CInv_case_nn baseOf isDummy annot st k n hidem hinv hb0 hd' han
              hab hnb

theorem CInv_init (baseOf : Nat → Nat) (isDummy : Nat → Bool) (k : Nat)
    (hk : 1 + 2 * k ≤ nannot) : CInv baseOf isDummy initBuf k := by
  refine ⟨rfl, rfl, by simp [initBuf], rfl, by simpa [initBuf] using hk,
    ?_, ?_, ?_, ?_⟩
  · intro x v h
    simp [initBuf, mfind] at h
  · intro x v h
    simp [initBuf, mfind] at h
  · intro x v h
    simp [initBuf, mfind] at h
  · intro x v h
    simp [initBuf, mfind] at h

theorem foldl_stepCanon_preserves (baseOf : Nat → Nat) (isDummy : Nat → Bool)
    (annot : Nat → List Nat) (hidem : ∀ x, baseOf (baseOf x) = baseOf x) :
    ∀ (l : List Nat) (st : ABuf) (k : Nat),
    CInv baseOf isDummy st (l.length + k) →
    CInv baseOf isDummy (l.foldl (stepCanon baseOf isDummy annot) st) k := by
  intro l
  induction l with
  | nil =>
    intro st k h
    simpa using h
  | cons n l ih =>
    intro st k h
    rw [List.foldl_cons]
    apply ih
    apply stepCanon_preserves baseOf isDummy annot hidem st (l.length + k) n
    have h2 : (n :: l).length + k = l.length + k + 1 := by
      simp [Nat.add_comm, Nat.add_assoc, Nat.add_left_comm]
    rw [← h2]
    exact h

theorem foldl_flatten_eq {α β : Type} (f : β → α → β) :
    ∀ (L : List (List α)) (b : β),
    L.foldl (fun s l => l.foldl f s) b = (L.flatten).foldl f b := by
  intro L
  induction L with
  | nil => intro b; rfl
  | cons l L ih =>
    intro b
    rw [List.foldl_cons, List.flatten_cons, List.foldl_append, ih]

theorem CInv_flush_empty (baseOf : Nat → Nat) (isDummy : Nat → Bool)
    (annot : Nat → List Nat) (mode : GMode) (st : ABuf) (k : Nat)
    (h : CInv baseOf isDummy st k) :
    CInv baseOf isDummy (flushBatch mode annot st) k := by
  rw [flushBatch_empty mode annot st h.qn]
  obtain ⟨qn, qr, s1, s0, bu, vlt, sy, dz, nz⟩ := h
  exact ⟨rfl, rfl, s1, s0, bu, vlt, sy, dz, nz⟩

/-- After a full `fetch_queued_annotations` on an unwrapped CANONICAL
graph with `row_batch_size_ = 1`, the invariant holds with no budget
left. -/
theorem fetchQueued_canonical_CInv (baseOf : Nat → Nat) (isDummy : Nat → Bool)
    (annot : Nat → List Nat) (hidem : ∀ x, baseOf (baseOf x) = baseOf x)
    (paths : List (List Nat))
    (hbudget : 1 + 2 * paths.flatten.length ≤ nannot) :
    CInv baseOf isDummy
      (fetchQueued GMode.canonical baseOf isDummy annot 1 paths initBuf) 0 := by
  have h0 : CInv baseOf isDummy initBuf (paths.flatten.length + 0) :=
    CInv_init baseOf isDummy _ (by omega)
  have h1 := foldl_stepCanon_preserves baseOf isDummy annot hidem
    paths.flatten initBuf 0 h0
  have heq : fetchQueued GMode.canonical baseOf isDummy annot 1 paths initBuf
      = flushBatch GMode.canonical annot
          ((paths.flatten).foldl (stepCanon baseOf isDummy annot) initBuf) := by
    rw [fetchQueued, ← foldl_flatten_eq]
    rfl
  rw [heq]
  exact CInv_flush_empty baseOf isDummy annot GMode.canonical _ 0 h1

theorem mfind_tryEmplace_isSome {m : List (Nat × Nat)} {k v x : Nat}
    (h : (mfind (tryEmplace m k v).1 x).isSome) :
    (mfind m x).isSome ∨ x = k := by
  by_cases hx : x = k
  · exact Or.inr hx
  · rw [mfind_tryEmplace_other v hx] at h
    exact Or.inl h

theorem mfind_massign_isSome {m : List (Nat × Nat)} {k v x : Nat}
    (h : (mfind (massign m k v) x).isSome) :
    (mfind m x).isSome ∨ x = k := by
  by_cases hx : x = k
  · exact Or.inr hx
  · rw [mfind_massign_other m k v x hx] at h
    exact Or.inl h

/-- Outside the unwrapped CANONICAL mode the batch check is unreachable,
so the whole fetch is one processing pass followed by a single flush. -/
theorem fetchQueued_nocheck (mode : GMode) (hm : mode ≠ GMode.canonical)
    (baseOf : Nat → Nat) (isDummy : Nat → Bool) (annot : Nat → List Nat)
    (bs : Nat) (paths : List (List Nat)) (st0 : ABuf) :
    fetchQueued mode baseOf isDummy annot bs paths st0
      = flushBatch mode annot
          ((paths.flatten).foldl (processNode mode baseOf isDummy) st0) := by
  have hrb : ∀ n, reachesBatchCheck mode baseOf isDummy n = false := by
    intro n
    cases mode with
    | basic => rfl
    | wrapped => rfl
    | canonical => exact absurd rfl hm
  have hfn : ∀ (s2 : ABuf) (n : Nat),
      (if reachesBatchCheck mode baseOf isDummy n = true
          ∧ bs ≤ (processNode mode baseOf isDummy s2 n).queuedRows.length
       then flushBatch mode annot (processNode mode baseOf isDummy s2 n)
       else processNode mode baseOf isDummy s2 n)
        = processNode mode baseOf isDummy s2 n := by
    intro s2 n
    rw [if_neg]
    intro hc
    rw [hrb n] at hc
    exact absurd hc.1 (by simp)
  rw [fetchQueued, ← foldl_flatten_eq]
  simp only [hfn]

/-- In BASIC mode one loop iteration only ever touches the path node `n`
itself: no base-node aliasing, no folding. -/
theorem processNode_basic_step (baseOf : Nat → Nat) (isDummy : Nat → Bool)
    (st : ABuf) (n : Nat) :
    (∀ x, (mfind (processNode GMode.basic baseOf isDummy st n).nodeToCols x).isSome →
        (mfind st.nodeToCols x).isSome ∨ x = n)
    ∧ (∀ x, x ∈ (processNode GMode.basic baseOf isDummy st n).queuedNodes →
        x ∈ st.queuedNodes ∨ x = n)
    ∧ (∀ x, x ∈ (processNode GMode.basic baseOf isDummy st n).queuedRows →
        x ∈ st.queuedRows ∨ x = n) := by
  have hpn : processNode GMode.basic baseOf isDummy st n
      = (if n = 0 then { st with nodeToCols := (tryEmplace st.nodeToCols n 0).1 }
         else if isDummy n then
           { st with nodeToCols := (tryEmplace st.nodeToCols n 0).1 }
         else if (tryEmplace st.nodeToCols n nannot).2 then
           { st with
             nodeToCols := (tryEmplace st.nodeToCols n nannot).1,
             queuedNodes := st.queuedNodes ++ [n],
             queuedRows := st.queuedRows ++ [n] }
         else { st with nodeToCols := (tryEmplace st.nodeToCols n nannot).1 }) := by
    rw [processNode]
    by_cases h0 : n = 0
    · rw [if_pos h0, if_pos h0]
    · rw [if_neg h0, if_neg h0]
      by_cases hd : isDummy n = true
      · rw [if_pos hd, if_pos hd]
        rw [if_neg (fun hc => hc.1 rfl)]
      · rw [if_neg hd, if_neg hd, if_pos (Or.inr rfl)]
  rw [hpn]
  by_cases h0 : n = 0
  · rw [if_pos h0]
    refine ⟨?_, ?_, ?_⟩
    · intro x h
      exact mfind_tryEmplace_isSome h
    · intro x h
      exact Or.inl h
    · intro x h
      exact Or.inl h
  · rw [if_neg h0]
    by_cases hd : isDummy n = true
    · rw [if_pos hd]
      refine ⟨?_, ?_, ?_⟩
      · intro x h
        exact mfind_tryEmplace_isSome h
      · intro x h
        exact Or.inl h
      · intro x h
        exact Or.inl h
    · rw [if_neg hd]
      by_cases hq : (tryEmplace st.nodeToCols n nannot).2 = true
      · rw [if_pos hq]
        refine ⟨?_, ?_, ?_⟩
        · intro x h
          exact mfind_tryEmplace_isSome h
        · intro x h
          dsimp only at h
          rcases List.mem_append.mp h with h2 | h2
          · exact Or.inl h2
          · simp only [List.mem_singleton] at h2
            exact Or.inr h2
        · intro x h
          dsimp only at h
          rcases List.mem_append.mp h with h2 | h2
          · exact Or.inl h2
          · simp only [List.mem_singleton] at h2
            exact Or.inr h2
      · rw [if_neg hq]
        refine ⟨?_, ?_, ?_⟩
        · intro x h
          exact mfind_tryEmplace_isSome h
        · intro x h
          exact Or.inl h
        · intro x h
          exact Or.inl h

theorem basic_fold_keys (baseOf : Nat → Nat) (isDummy : Nat → Bool) :
    ∀ (l : List Nat) (st : ABuf),
    (∀ x, (mfind ((l.foldl (processNode GMode.basic baseOf isDummy) st).nodeToCols) x).isSome →
        (mfind st.nodeToCols x).isSome ∨ x ∈ l)
    ∧ (∀ x, x ∈ (l.foldl (processNode GMode.basic baseOf isDummy) st).queuedNodes →
        x ∈ st.queuedNodes ∨ x ∈ l)
    ∧ (∀ x, x ∈ (l.foldl (processNode GMode.basic baseOf isDummy) st).queuedRows →
        x ∈ st.queuedRows ∨ x ∈ l) := by
  intro l
  induction l with
  | nil =>
    intro st
    exact ⟨fun x h => Or.inl h, fun x h => Or.inl h, fun x h => Or.inl h⟩
  | cons n l ih =>
    intro st
    refine ⟨?_, ?_, ?_⟩
    · intro x h
      rw [List.foldl_cons] at h
      rcases (ih _).1 x h with h2 | h2
      · rcases (processNode_basic_step baseOf isDummy st n).1 x h2 with h3 | h3
        · exact Or.inl h3
        · exact Or.inr (by rw [h3]; exact List.mem_cons_self n l)
      · exact Or.inr (List.mem_cons_of_mem n h2)
    · intro x h
      rw [List.foldl_cons] at h
      rcases (ih _).2.1 x h with h2 | h2
      · rcases (processNode_basic_step baseOf isDummy st n).2.1 x h2 with h3 | h3
        · exact Or.inl h3
        · exact Or.inr (by rw [h3]; exact List.mem_cons_self n l)
      · exact Or.inr (List.mem_cons_of_mem n h2)
    · intro x h
      rw [List.foldl_cons] at h
      rcases (ih _).2.2 x h with h2 | h2
      · rcases (processNode_basic_step baseOf isDummy st n).2.2 x h2 with h3 | h3
        · exact Or.inl h3
        · exact Or.inr (by rw [h3]; exact List.mem_cons_self n l)
      · exact Or.inr (List.mem_cons_of_mem n h2)

theorem pushNodeLabels_keys (mode : GMode) (s : ABuf) (a b : Nat)
    (L : List Nat) (x : Nat)
    (h : (mfind (pushNodeLabels mode s a b L).nodeToCols x).isSome) :
    (mfind s.nodeToCols x).isSome ∨ x = a ∨ x = b := by
  cases mode with
  | basic =>
    dsimp only [pushNodeLabels] at h
    rcases mfind_massign_isSome h with h2 | h2
    · exact Or.inl h2
    · exact Or.inr (Or.inl h2)
  | wrapped =>
    dsimp only [pushNodeLabels] at h
    rcases mfind_massign_isSome h with h2 | h2
    · exact Or.inl h2
    · exact Or.inr (Or.inr h2)
  | canonical =>
    dsimp only [pushNodeLabels] at h
    by_cases hab : b ≠ a
    · rw [if_pos hab] at h
      rcases mfind_tryEmplace_isSome h with h2 | h2
      · rcases mfind_massign_isSome h2 with h3 | h3
        · exact Or.inl h3
        · exact Or.inr (Or.inl h3)
      · exact Or.inr (Or.inr h2)
    · rw [if_neg hab] at h
      rcases mfind_massign_isSome h with h2 | h2
      · exact Or.inl h2
      · exact Or.inr (Or.inl h2)

theorem flush_keys (mode : GMode) (annot : Nat → List Nat) :
    ∀ (pairs : List (Nat × Nat)) (s : ABuf) (x : Nat),
    (mfind ((pairs.foldl
        (fun s p => pushNodeLabels mode s p.1 p.2 (sortNats (annot p.2)))
        s).nodeToCols) x).isSome →
    (mfind s.nodeToCols x).isSome ∨ ∃ p, p ∈ pairs ∧ (x = p.1 ∨ x = p.2) := by
  intro pairs
  induction pairs with
  | nil =>
    intro s x h
    exact Or.inl h
  | cons p ps ih =>
    intro s x h
    rw [List.foldl_cons] at h
    rcases ih _ x h with h2 | ⟨q, hq, hxq⟩
    · rcases pushNodeLabels_keys mode s p.1 p.2 _ x h2 with h3 | h3
      · exact Or.inl h3
      · exact Or.inr ⟨p, List.mem_cons_self p ps, h3⟩
    · exact Or.inr ⟨q, List.mem_cons_of_mem p hq, hxq⟩

/-- In BASIC mode the finished map mentions only nodes of the queued
paths themselves: no base-node folding happens. -/
theorem basic_keys_subset (baseOf : Nat → Nat) (isDummy : Nat → Bool)
    (annot : Nat → List Nat) (bs : Nat) (paths : List (List Nat)) :
    ∀ x, (mfind (fetchQueued GMode.basic baseOf isDummy annot bs paths
        initBuf).nodeToCols x).isSome →
      x ∈ paths.flatten := by
  intro x h
  rw [fetchQueued_nocheck GMode.basic (by decide) baseOf isDummy annot bs paths
    initBuf] at h
  rw [flushBatch] at h
  rcases flush_keys GMode.basic annot _ _ x h with h2 | ⟨p, hp, hx⟩
  · have h3 := (basic_fold_keys baseOf isDummy paths.flatten initBuf).1 x h2
    rcases h3 with h4 | h4
    · simp [initBuf, mfind] at h4
    · exact h4
  · have hzip := List.of_mem_zip hp
    rcases hx with rfl | rfl
    · have h3 := (basic_fold_keys baseOf isDummy paths.flatten initBuf).2.1 p.1
        hzip.1
      rcases h3 with h4 | h4
      · simp [initBuf] at h4
      · exact h4
    · have h3 := (basic_fold_keys baseOf isDummy paths.flatten initBuf).2.2 p.2
        hzip.2
      rcases h3 with h4 | h4
      · simp [initBuf] at h4
      · exact h4

/-- Behind a `CanonicalDBG` wrapper one loop iteration touches only the
base node (both orientations share its entry), except that dummy and
npos nodes get their own id-0 entries. -/
theorem processNode_wrapped_step (baseOf : Nat → Nat) (isDummy : Nat → Bool)
    (hidem : ∀ x, baseOf (baseOf x) = baseOf x) (st : ABuf) (n : Nat) :
    (∀ x, (mfind (processNode GMode.wrapped baseOf isDummy st n).nodeToCols x).isSome →
        (mfind st.nodeToCols x).isSome ∨ baseOf x = x ∨ baseOf x = 0
          ∨ isDummy (baseOf x) = true)
    ∧ (∀ x, x ∈ (processNode GMode.wrapped baseOf isDummy st n).queuedNodes →
        x ∈ st.queuedNodes ∨ baseOf x = x)
    ∧ (∀ x, x ∈ (processNode GMode.wrapped baseOf isDummy st n).queuedRows →
        x ∈ st.queuedRows ∨ baseOf x = x) := by
  have hpn : processNode GMode.wrapped baseOf isDummy st n
      = (if baseOf n = 0 then
          { st with nodeToCols := (tryEmplace st.nodeToCols n 0).1 }
         else if isDummy (baseOf n) then
           (if baseOf n ≠ n then
             { st with nodeToCols := (tryEmplace (tryEmplace st.nodeToCols (baseOf n) 0).1 n 0).1 }
            else { st with nodeToCols := (tryEmplace st.nodeToCols (baseOf n) 0).1 })
         else if (tryEmplace st.nodeToCols (baseOf n) nannot).2 then
           { st with
             nodeToCols := (tryEmplace st.nodeToCols (baseOf n) nannot).1,
             queuedNodes := st.queuedNodes ++ [baseOf n],
             queuedRows := st.queuedRows ++ [baseOf n] }
         else { st with nodeToCols := (tryEmplace st.nodeToCols (baseOf n) nannot).1 }) := by
    rw [processNode]
    case x_1 => decide
    by_cases h0 : baseOf n = 0
    · rw [if_pos h0, if_pos h0]
    · rw [if_neg h0, if_neg h0]
      by_cases hd : isDummy (baseOf n) = true
      · rw [if_pos hd, if_pos hd]
        by_cases hbn : baseOf n ≠ n
        · rw [if_pos ⟨by decide, hbn⟩, if_pos hbn]
        · rw [if_neg (fun hc => hbn hc.2), if_neg hbn]
      · rw [if_neg hd, if_neg hd, if_pos (Or.inl rfl)]
  rw [hpn]
  by_cases h0 : baseOf n = 0
  · rw [if_pos h0]
    refine ⟨?_, fun x h => Or.inl h, fun x h => Or.inl h⟩
    intro x h
    rcases mfind_tryEmplace_isSome h with h2 | rfl
    · exact Or.inl h2
    · exact Or.inr (Or.inr (Or.inl h0))
  · rw [if_neg h0]
    by_cases hd : isDummy (baseOf n) = true
    · rw [if_pos hd]
      by_cases hbn : baseOf n ≠ n
      · rw [if_pos hbn]
        refine ⟨?_, fun x h => Or.inl h, fun x h => Or.inl h⟩
        intro x h
        rcases mfind_tryEmplace_isSome h with h2 | rfl
        · rcases mfind_tryEmplace_isSome h2 with h3 | rfl
          · exact Or.inl h3
          · exact Or.inr (Or.inl (hidem n))
        · exact Or.inr (Or.inr (Or.inr hd))
      · rw [if_neg hbn]
        refine ⟨?_, fun x h => Or.inl h, fun x h => Or.inl h⟩
        intro x h
        rcases mfind_tryEmplace_isSome h with h2 | rfl
        · exact Or.inl h2
        · exact Or.inr (Or.inl (hidem n))
    · rw [if_neg hd]
      by_cases hq : (tryEmplace st.nodeToCols (baseOf n) nannot).2 = true
      · rw [if_pos hq]
        refine ⟨?_, ?_, ?_⟩
        · intro x h
          rcases mfind_tryEmplace_isSome h with h2 | rfl
          · exact Or.inl h2
          · exact Or.inr (Or.inl (hidem n))
        · intro x h
          dsimp only at h
          rcases List.mem_append.mp h with h2 | h2
          · exact Or.inl h2
          · simp only [List.mem_singleton] at h2
            subst h2
            exact Or.inr (hidem n)
        · intro x h
          dsimp only at h
          rcases List.mem_append.mp h with h2 | h2
          · exact Or.inl h2
          · simp only [List.mem_singleton] at h2
            subst h2
            exact Or.inr (hidem n)
      · rw [if_neg hq]
        refine ⟨?_, fun x h => Or.inl h, fun x h => Or.inl h⟩
        intro x h
        rcases mfind_tryEmplace_isSome h with h2 | rfl
        · exact Or.inl h2
        · exact Or.inr (Or.inl (hidem n))

theorem wrapped_fold_keys (baseOf : Nat → Nat) (isDummy : Nat → Bool)
    (hidem : ∀ x, baseOf (baseOf x) = baseOf x) :
    ∀ (l : List Nat) (st : ABuf),
    (∀ x, (mfind ((l.foldl (processNode GMode.wrapped baseOf isDummy) st).nodeToCols) x).isSome →
        (mfind st.nodeToCols x).isSome ∨ baseOf x = x ∨ baseOf x = 0
          ∨ isDummy (baseOf x) = true)
    ∧ (∀ x, x ∈ (l.foldl (processNode GMode.wrapped baseOf isDummy) st).queuedNodes →
        x ∈ st.queuedNodes ∨ baseOf x = x)
    ∧ (∀ x, x ∈ (l.foldl (processNode GMode.wrapped baseOf isDummy) st).queuedRows →
        x ∈ st.queuedRows ∨ baseOf x = x) := by
  intro l
  induction l with
  | nil =>
    intro st
    exact ⟨fun x h => Or.inl h, fun x h => Or.inl h, fun x h => Or.inl h⟩
  | cons n l ih =>
    intro st
    refine ⟨?_, ?_, ?_⟩
    · intro x h
      rw [List.foldl_cons] at h
      rcases (ih _).1 x h with h2 | h2
      · rcases (processNode_wrapped_step baseOf isDummy hidem st n).1 x h2
          with h3 | h3
        · exact Or.inl h3
        · exact Or.inr h3
      · exact Or.inr h2
    · intro x h
      rw [List.foldl_cons] at h
      rcases (ih _).2.1 x h with h2 | h2
      · rcases (processNode_wrapped_step baseOf isDummy hidem st n).2.1 x h2
          with h3 | h3
        · exact Or.inl h3
        · exact Or.inr h3
      · exact Or.inr h2
    · intro x h
      rw [List.foldl_cons] at h
      rcases (ih _).2.2 x h with h2 | h2
      · rcases (processNode_wrapped_step baseOf isDummy hidem st n).2.2 x h2
          with h3 | h3
        · exact Or.inl h3
        · exact Or.inr h3
      · exact Or.inr h2

/-- Behind a `CanonicalDBG` wrapper the finished map is keyed by
base-node fixed points, apart from id-0 dummy and npos entries: a node
and its reverse complement share the one entry their common base owns. -/
theorem wrapped_keys_base (baseOf : Nat → Nat) (isDummy : Nat → Bool)
    (annot : Nat → List Nat) (bs : Nat) (paths : List (List Nat))
    (hidem : ∀ x, baseOf (baseOf x) = baseOf x) :
    ∀ x, (mfind (fetchQueued GMode.wrapped baseOf isDummy annot bs paths
        initBuf).nodeToCols x).isSome →
      baseOf x = x ∨ baseOf x = 0 ∨ isDummy (baseOf x) = true := by
  intro x h
  rw [fetchQueued_nocheck GMode.wrapped (by decide) baseOf isDummy annot bs paths
    initBuf] at h
  rw [flushBatch] at h
  rcases flush_keys GMode.wrapped annot _ _ x h with h2 | ⟨p, hp, hx⟩
  · have h3 := (wrapped_fold_keys baseOf isDummy hidem paths.flatten initBuf).1
      x h2
    rcases h3 with h4 | h4
    · simp [initBuf, mfind] at h4
    · exact h4
  · have hzip := List.of_mem_zip hp
    rcases hx with rfl | rfl
    · have h3 := (wrapped_fold_keys baseOf isDummy hidem paths.flatten
        initBuf).2.1 p.1 hzip.1
      rcases h3 with h4 | h4
      · simp [initBuf] at h4
      · exact Or.inl h4
    · have h3 := (wrapped_fold_keys baseOf isDummy hidem paths.flatten
        initBuf).2.2 p.2 hzip.2
      rcases h3 with h4 | h4
      · simp [initBuf] at h4
      · exact Or.inl h4

/-! ### The C8 claim: canonical folding, no folding in basic mode, dummies at id 0 -/

/-- C8: after `fetch_queued_annotations` completes (modelled at
`row_batch_size_ = 1` for the unwrapped CANONICAL reconciliation, any
batch size elsewhere), on a CANONICAL-mode graph any two recorded nodes
with the same (non-`npos`) base — a node and its reverse complement —
hold the same column-set id; nodes over a BOSS-dummy base and nodes whose
base is `npos` hold id 0, and id 0 is the reserved empty set seeded by
the constructor; on a BASIC graph no folding is applied: the map mentions
only the path nodes themselves; behind a `CanonicalDBG` wrapper the map
is keyed by base-node fixed points (shared by both orientations), apart
from id-0 dummy/npos entries.  `baseOf` (idempotent) stands for
`get_base_node` / `map_to_nodes`. -/
theorem C8_canonical_folding_and_dummies (baseOf : Nat → Nat)
    (isDummy : Nat → Bool) (annot : Nat → List Nat) (paths : List (List Nat))
    (bs : Nat) (hidem : ∀ x, baseOf (baseOf x) = baseOf x)
    (hbudget : 1 + 2 * paths.flatten.length ≤ nannot) :
    (∀ n n2 v v2,
      mfind (fetchQueued GMode.canonical baseOf isDummy annot 1 paths
        initBuf).nodeToCols n = some v →
      mfind (fetchQueued GMode.canonical baseOf isDummy annot 1 paths
        initBuf).nodeToCols n2 = some v2 →
      baseOf n = baseOf n2 → baseOf n ≠ 0 → v = v2)
    ∧ (∀ n v, mfind (fetchQueued GMode.canonical baseOf isDummy annot 1 paths
        initBuf).nodeToCols n = some v → baseOf n ≠ 0 →
        isDummy (baseOf n) = true → v = 0)
    ∧ (∀ n v, mfind (fetchQueued GMode.canonical baseOf isDummy annot 1 paths
        initBuf).nodeToCols n = some v → baseOf n = 0 → v = 0)
    ∧ (fetchQueued GMode.canonical baseOf isDummy annot 1 paths
        initBuf).columnSets.getD 0 [] = []
    ∧ (∀ x, (mfind (fetchQueued GMode.basic baseOf isDummy annot bs paths
        initBuf).nodeToCols x).isSome → x ∈ paths.flatten)
    ∧ (∀ x, (mfind (fetchQueued GMode.wrapped baseOf isDummy annot bs paths
        initBuf).nodeToCols x).isSome →
        baseOf x = x ∨ baseOf x = 0 ∨ isDummy (baseOf x) = true) := by
  have hinv := fetchQueued_canonical_CInv baseOf isDummy annot hidem paths hbudget
  refine ⟨?_, hinv.dz, hinv.nz, hinv.sets0,
    basic_keys_subset baseOf isDummy annot bs paths,
    wrapped_keys_base baseOf isDummy annot bs paths hidem⟩
  intro n n2 v v2 h1 h2 hb hb0
  have s1 := hinv.sync n v h1 hb0
  have s2 := hinv.sync n2 v2 h2 (by rw [← hb]; exact hb0)
  rw [hb] at s1
  rw [s1] at s2
  injection s2

/-- C8, witness: the theorem applied to a concrete CANONICAL graph — the
reverse-complement pair 2/3 share id 1, the dummy node 4 and the
npos-based node 5 hold id 0, id 0 is the empty set, the BASIC run keys
only path nodes, and the wrapped run keys only base fixed points. -/
theorem C8_canonical_folding_and_dummies_witness :
    mfind (fetchQueued GMode.canonical bOfEx isDummyEx annotEx 1 [[2, 3, 4, 5]]
        initBuf).nodeToCols 2 = some 1
      ∧ mfind (fetchQueued GMode.canonical bOfEx isDummyEx annotEx 1 [[2, 3, 4, 5]]
          initBuf).nodeToCols 3 = some 1
      ∧ (1 : Nat) = 1
      ∧ (0 : Nat) = 0
      ∧ mfind (fetchQueued GMode.canonical bOfEx isDummyEx annotEx 1 [[2, 3, 4, 5]]
          initBuf).nodeToCols 4 = some 0
      ∧ mfind (fetchQueued GMode.canonical bOfEx isDummyEx annotEx 1 [[2, 3, 4, 5]]
          initBuf).nodeToCols 5 = some 0
      ∧ (fetchQueued GMode.canonical bOfEx isDummyEx annotEx 1 [[2, 3, 4, 5]]
          initBuf).columnSets.getD 0 [] = []
      ∧ (2 : Nat) ∈ ([[2, 3, 4, 5]] : List (List Nat)).flatten
      ∧ (bOfEx 2 = 2 ∨ bOfEx 2 = 0 ∨ isDummyEx (bOfEx 2) = true) := by
  have hidem : ∀ x, bOfEx (bOfEx x) = bOfEx x := by
    intro x
    by_cases h3 : x = 3
    · simp [bOfEx, h3]
    · by_cases h5 : x = 5
      · simp [bOfEx, h3, h5]
      · simp [bOfEx, h3, h5]
  have h := C8_canonical_folding_and_dummies bOfEx isDummyEx annotEx
    [[2, 3, 4, 5]] 10 hidem (by decide)
  refine ⟨by decide, by decide, ?_, ?_, by decide, by decide, h.2.2.2.1, ?_, ?_⟩
  · exact h.1 2 3 1 1 (by decide) (by decide) (by decide) (by decide)
  · exact h.2.1 4 0 (by decide) (by decide) (by decide)
  · exact h.2.2.2.2.1 2 (by decide)
  · exact h.2.2.2.2.2 2 (by decide)

end Metagraph
